import Mathlib

/-!
Verification development for the `loopback-relation-filter` component.

The development shallowly embeds `src/SearchQueryBuilder.js` (join
collection, filter application, order application, operator application)
together with the collaborating modules.  The collaborators
`SearchQueryNormalizer`, `ModelWrapper` and `TableAliasProvider` are not
part of the available sources; the definitions embedding them are
modelled from the specification and are marked as such in their doc
comments.  Loopback filter values are embedded as a JSON-like inductive
type; the knex query builder (an external dependency) is modelled as a
record of the predicate, aggregate, order and join fragments the source
appends to it.
-/

/-- JSON-like values: the shape of loopback `where` filters and `order`
clauses (objects keep their key insertion order, as JavaScript does). -/
inductive JVal where
  | null : JVal
  | bool : Bool → JVal
  | num : Int → JVal
  | str : String → JVal
  | arr : List JVal → JVal
  | obj : List (String × JVal) → JVal
deriving Repr

/-- JavaScript truthiness of an embedded value (`undefined` is represented
by `null`; objects and arrays are always truthy). -/
def truthyJ : JVal → Bool
  | .null => false
  | .bool b => b
  | .num n => n != 0
  | .str s => s ≠ ""
  | .arr _ => true
  | .obj _ => true

/-- The entries of an object value; anything else has none (JavaScript
`Object.keys` on non-objects used by the source only via guarded paths). -/
def entriesOf : JVal → List (String × JVal)
  | .obj kvs => kvs
  | _ => []

/-- First value stored under a key (JavaScript property access on an
object literal; objects never hold duplicate keys). -/
def jget : List (String × JVal) → String → Option JVal
  | [], _ => none
  | (k, v) :: rest, key => if k = key then some v else jget rest key

/-- `v[key]` for an object value, `none` otherwise. -/
def jfield (v : JVal) (key : String) : Option JVal :=
  jget (entriesOf v) key

/-- `v[key]` is present and truthy (the `!query.and` test of the source). -/
def truthyField (v : JVal) (key : String) : Bool :=
  match jfield v key with
  | some w => truthyJ w
  | none => false

/-- The elements of `v[key]` when it is an array, `[]` otherwise (the
`{ and = [], or = [] }` destructuring of the source on normalized input). -/
def jarrField (v : JVal) (key : String) : List JVal :=
  match jfield v key with
  | some (.arr xs) => xs
  | _ => []

/-- The elements of an array value, `[]` otherwise. -/
def jelems : JVal → List JVal
  | .arr xs => xs
  | _ => []

mutual

/-- Size of a value, used as the termination measure of the recursive
walks; object and array nodes weigh 2 so that the entry list of a node is
strictly lighter than the node. -/
def jsize : JVal → Nat
  | .obj kvs => 2 + jsizeE kvs
  | .arr xs => 2 + jsizeL xs
  | _ => 1

/-- Summed size of an entry list. -/
def jsizeE : List (String × JVal) → Nat
  | [] => 0
  | (_, v) :: rest => 1 + jsize v + jsizeE rest

/-- Summed size of a value list. -/
def jsizeL : List JVal → Nat
  | [] => 0
  | x :: rest => 1 + jsize x + jsizeL rest

end

theorem jsize_pos (v : JVal) : 1 ≤ jsize v := by
  cases v <;> simp [jsize] <;> omega

theorem jsizeE_append (a b : List (String × JVal)) :
    jsizeE (a ++ b) = jsizeE a + jsizeE b := by
  induction a with
  | nil => simp [jsizeE]
  | cons kv rest ih => cases kv; simp [jsizeE, ih]; omega

theorem jsizeL_append (a b : List JVal) :
    jsizeL (a ++ b) = jsizeL a + jsizeL b := by
  induction a with
  | nil => simp [jsizeL]
  | cons x rest ih => simp [jsizeL, ih]; omega

theorem jsize_of_mem_entries {k : String} {v : JVal}
    {kvs : List (String × JVal)} (h : (k, v) ∈ kvs) :
    1 + jsize v ≤ jsizeE kvs := by
  induction kvs with
  | nil => cases h
  | cons kv rest ih =>
      cases kv with
      | mk k₀ v₀ =>
          rcases List.mem_cons.mp h with h₀ | h₀
          · cases h₀; simp [jsizeE]; try omega
          · have := ih h₀; simp [jsizeE]; omega

theorem jsize_of_mem_list {x : JVal} {xs : List JVal} (h : x ∈ xs) :
    1 + jsize x ≤ jsizeL xs := by
  induction xs with
  | nil => cases h
  | cons y rest ih =>
      rcases List.mem_cons.mp h with h₀ | h₀
      · cases h₀; simp [jsizeL]; try omega
      · have := ih h₀; simp [jsizeL]; omega

theorem jsizeE_entriesOf_le (v : JVal) : jsizeE (entriesOf v) + 2 ≤ jsize v + 1 := by
  cases v <;> simp [entriesOf, jsize, jsizeE] <;> try omega

theorem jsizeL_jelems_le (v : JVal) : jsizeL (jelems v) + 2 ≤ jsize v + 1 := by
  cases v <;> simp [jelems, jsize, jsizeL] <;> try omega

/-- The decimal digit character for `d` (meaningful for `d < 10`). -/
def digitChar (d : Nat) : Char := Char.ofNat (48 + d)

/-- Decimal digit list of a natural number, most significant first. -/
def natDigits (n : Nat) : List Char :=
  if _h : n < 10 then [digitChar n]
  else natDigits (n / 10) ++ [digitChar (n % 10)]
decreasing_by exact Nat.div_lt_self (by omega) (by omega)

/-- Decimal rendering of a natural number. -/
def natStr (n : Nat) : String := String.mk (natDigits n)

/-- Decode a digit list back to the natural number it renders. -/
def decDigits (cs : List Char) : Nat :=
  cs.foldl (fun a c => 10 * a + (c.toNat - 48)) 0

theorem digitChar_toNat {d : Nat} (h : d < 10) : (digitChar d).toNat = 48 + d := by
  interval_cases d <;> decide

theorem digitChar_ne_underscore {d : Nat} (h : d < 10) : digitChar d ≠ '_' := by
  interval_cases d <;> decide

theorem decDigits_append_one (xs : List Char) (c : Char) :
    decDigits (xs ++ [c]) = 10 * decDigits xs + (c.toNat - 48) := by
  simp [decDigits, List.foldl_append]

theorem decDigits_natDigits (n : Nat) : decDigits (natDigits n) = n := by
  induction n using Nat.strong_induction_on with
  | _ n ih =>
      rw [natDigits]
      by_cases h : n < 10
      · simp [h, decDigits, digitChar_toNat h]
      · have hlt : n / 10 < n := Nat.div_lt_self (by omega) (by omega)
        simp only [h, if_neg, dite_false]
        rw [decDigits_append_one, ih _ hlt, digitChar_toNat (Nat.mod_lt n (by omega))]
        omega

theorem natDigits_ne_underscore (n : Nat) : ∀ c ∈ natDigits n, c ≠ '_' := by
  induction n using Nat.strong_induction_on with
  | _ n ih =>
      intro c hc
      rw [natDigits] at hc
      by_cases h : n < 10
      · simp [h] at hc
        exact hc ▸ digitChar_ne_underscore h
      · have hlt : n / 10 < n := Nat.div_lt_self (by omega) (by omega)
        simp only [h, if_neg, dite_false, List.mem_append, List.mem_singleton] at hc
        rcases hc with hc | hc
        · exact ih _ hlt c hc
        · exact hc ▸ digitChar_ne_underscore (Nat.mod_lt n (by omega))

theorem takeWhile_append_of_forall {p : Char → Bool} (as : List Char) {b : Char}
    (bs : List Char) (ha : ∀ c ∈ as, p c = true) (hb : p b = false) :
    List.takeWhile p (as ++ b :: bs) = as := by
  induction as with
  | nil => simp [List.takeWhile, hb]
  | cons a rest ih =>
      have hpa : p a = true := ha a (List.mem_cons_self a rest)
      simp [List.takeWhile, hpa, ih (fun c hc => ha c (List.mem_cons_of_mem a hc))]

/-- The characters after the last underscore of a character list. -/
def afterLastSep (cs : List Char) : List Char :=
  (List.takeWhile (fun c => c != '_') cs.reverse).reverse

theorem afterLastSep_append (xs ds : List Char) (hds : ∀ c ∈ ds, c ≠ '_') :
    afterLastSep (xs ++ '_' :: ds) = ds := by
  unfold afterLastSep
  have hrev : (xs ++ '_' :: ds).reverse = ds.reverse ++ '_' :: xs.reverse := by
    simp
  rw [hrev, takeWhile_append_of_forall ds.reverse xs.reverse
        (fun c hc => by simpa using hds c (List.mem_reverse.mp hc)) (by simp),
      List.reverse_reverse]

/-- The numeric allocation index embedded at the tail of an alias (or of an
aliased table string). -/
def aliasIdx (s : String) : Nat := decDigits (afterLastSep s.data)

/-- Modelled from the spec: the aliases issued by the `TableAliasProvider`
encode the model, relation and through-model names for debuggability and a
provider-unique counter value for uniqueness. -/
def aliasBase (model : String) (relationName : Option String) (through : Option String) :
    String :=
  model ++ (match relationName with | some r => "_" ++ r | none => "") ++
    (match through with | some t => "_" ++ t | none => "")

/-- An alias: a debuggable base followed by the allocation counter. -/
def mkAliasStr (base : String) (n : Nat) : String := base ++ "_" ++ natStr n

theorem aliasIdx_append_mk (x : String) (n : Nat) :
    aliasIdx (x ++ "_" ++ natStr n) = n := by
  unfold aliasIdx natStr
  have hdata : (x ++ "_" ++ String.mk (natDigits n)).data = x.data ++ '_' :: natDigits n := by
    simp [String.data_append]
  rw [hdata, afterLastSep_append x.data (natDigits n) (natDigits_ne_underscore n),
    decDigits_natDigits]

theorem aliasIdx_mkAliasStr (base : String) (n : Nat) :
    aliasIdx (mkAliasStr base n) = n := aliasIdx_append_mk base n

theorem mkAliasStr_inj_idx {b₁ b₂ : String} {n₁ n₂ : Nat} (hne : n₁ ≠ n₂) :
    mkAliasStr b₁ n₁ ≠ mkAliasStr b₂ n₂ := by
  intro h
  have := congrArg aliasIdx h
  rw [aliasIdx_mkAliasStr, aliasIdx_mkAliasStr] at this
  exact hne this

/-- A loopback relation definition as consumed by the builder: local and
remote keys, the target model name, and the optional pivot model name with
its `keyThrough`. -/
structure RelDef where
  name : String
  keyFrom : String
  keyTo : String
  keyThrough : String
  modelTo : String
  modelThrough : Option String
deriving Repr, DecidableEq

/-- A schema entity: its declared properties, relations, id property, the
connector name and the per-connector column-name overrides. -/
structure ModelDef where
  name : String
  tableName : String
  connectorName : String
  properties : List String
  relations : List RelDef
  idProperty : String
  columnOverrides : List (String × String)
deriving Repr, DecidableEq

/-- The schema registry: resolves a model name to its definition (the
host guarantees every referenced entity is registered). -/
abbrev Schema := String → ModelDef

/-- Modelled from the spec: a `ModelWrapper` is a schema entity bound to
one table alias for its whole lifetime. -/
structure WModel where
  model : ModelDef
  aliasName : String
deriving Repr, DecidableEq

/-- `ModelWrapper.getRelation`. -/
def getRelationW (w : WModel) (name : String) : Option RelDef :=
  w.model.relations.find? (fun r => r.name = name)

/-- `ModelWrapper.isRelation`. -/
def isRelationW (w : WModel) (name : String) : Bool :=
  (getRelationW w name).isSome

/-- `ModelWrapper.isProperty`. -/
def isPropertyW (w : WModel) (name : String) : Bool :=
  w.model.properties.contains name

/-- Modelled from the spec: the column a property resolves to — the
per-connector override when configured, else the declared name, folded to
lower case unless `preserveCase`. -/
def columnOf (m : ModelDef) (key : String) (preserveCase : Bool) : String :=
  let base := match m.columnOverrides.find? (fun p => p.1 = key) with
    | some p => p.2
    | none => key
  if preserveCase then base else base.toLower

/-- Modelled from the spec: `ModelWrapper.getColumnName` resolves
`alias.column` against the wrapper's own alias. -/
def getColumnNameW (w : WModel) (key : String) (preserveCase : Bool) : String :=
  w.aliasName ++ "." ++ columnOf w.model key preserveCase

/-- Modelled from the spec: `ModelWrapper.getAliasedTable`. -/
def getAliasedTable (w : WModel) : String :=
  w.model.tableName ++ " as " ++ w.aliasName

/-- Modelled from the spec: `ModelWrapper.getIdProperties`; with
`ignoreAlias` the bare id property name is returned. -/
def getIdPropertiesW (w : WModel) (ignoreAlias preserveCase : Bool) : List String :=
  if ignoreAlias then [w.model.idProperty]
  else [getColumnNameW w w.model.idProperty preserveCase]

/-- Modelled from the spec: `ModelWrapper.getPropertyQueriedThrough` — the
reverse lookup that inspects the target entity's own relations for the one
pointing back through the same pivot, recovering the implicit join key;
`none` when no reverse relation is declared. -/
def getPropertyQueriedThrough (w : WModel) (rel : RelDef) : Option RelDef :=
  match rel.modelThrough with
  | none => none
  | some th => w.model.relations.find? (fun r => r.modelThrough == some th)

/-- The property name recovered by the reverse lookup, if any. -/
def queriedThroughProperty (w : WModel) (rel : RelDef) : Option String :=
  (getPropertyQueriedThrough w rel).map (fun r => r.keyFrom)

/-- `SearchQueryBuilder.createAlias`: derives the relation name and the
through-model name and asks the provider for an alias.  The provider state
is the shared allocation counter (modelled from the spec: aliases are
unique across a provider and all providers spawned from it, so spawned
providers share the counter). -/
def createAliasB (c : Nat) (modelName : String) (rel : Option RelDef) (forThrough : Bool) :
    String × Nat :=
  let relationName := rel.map (fun r => r.name)
  let through := if forThrough then (match rel with
    | some r => r.modelThrough
    | none => none) else none
  (mkAliasStr (aliasBase modelName relationName through) c, c + 1)

/-- The record `_trackAliases` stores per seen relation. -/
structure TrackRes where
  keyFrom : String
  modelTo : WModel
  relation : RelDef
  table : String
  modelThrough : Option WModel
deriving Repr, DecidableEq

/-- Lookup in the branch-local "seen relations" map. -/
def seenGet : List (String × TrackRes) → String → Option TrackRes
  | [], _ => none
  | (k, r) :: rest, key => if k = key then some r else seenGet rest key

/-- `SearchQueryBuilder._trackAliases`: memoized per branch level; on a
fresh relation it allocates the target alias (and, for a through relation,
the pivot alias), wraps the target model and records the result.  Returns
`none` exactly when the name is no relation of the root model (the source
would fault there; every caller guards with `isRelation`). -/
def trackAliases (S : Schema) (pc : Bool) (root : WModel) (relName : String)
    (seen : List (String × TrackRes)) (c : Nat) :
    Option (TrackRes × List (String × TrackRes) × Nat) :=
  match seenGet seen relName with
  | some r => some (r, seen, c)
  | none =>
    match getRelationW root relName with
    | none => none
    | some rel =>
      let p := createAliasB c root.model.name (some rel) false
      let modelTo : WModel := ⟨S rel.modelTo, p.1⟩
      let table := getAliasedTable modelTo
      let keyFrom := getColumnNameW root rel.keyFrom pc
      match rel.modelThrough with
      | some thName =>
          let q := createAliasB p.2 root.model.name (some rel) true
          let thW : WModel := ⟨S thName, q.1⟩
          let res : TrackRes := ⟨keyFrom, modelTo, rel, table, some thW⟩
          some (res, (relName, res) :: seen, q.2)
      | none =>
          let res : TrackRes := ⟨keyFrom, modelTo, rel, table, none⟩
          some (res, (relName, res) :: seen, p.2)

/-- A collected join: aliased table, qualified local key, qualified remote
key. -/
structure Join where
  table : String
  keyFrom : String
  keyTo : String
deriving Repr, DecidableEq

/-- `SearchQueryBuilder._joinReference`. -/
def joinReference (pc : Bool) (tr : TrackRes) : Join :=
  ⟨tr.table, tr.keyFrom, getColumnNameW tr.modelTo tr.relation.keyTo pc⟩

/-- `SearchQueryBuilder._joinMapping`: the pivot join followed by the
target join; the target key is the reverse-lookup property when truthy,
else the target model's id property. -/
def joinMapping (pc : Bool) (tr : TrackRes) : List Join :=
  match tr.modelThrough with
  | none => []
  | some thW =>
    let targetModelId := (getIdPropertiesW tr.modelTo true pc).headD tr.modelTo.model.idProperty
    let targetKey := match queriedThroughProperty tr.modelTo tr.relation with
      | some p => if p = "" then targetModelId else p
      | none => targetModelId
    [ ⟨getAliasedTable thW, tr.keyFrom, getColumnNameW thW tr.relation.keyTo pc⟩,
      ⟨tr.table, getColumnNameW thW tr.relation.keyThrough pc,
        getColumnNameW tr.modelTo targetKey pc⟩ ]

/-- Result of one level pass of `getAllJoins`: the children queued for the
next depth, the branch-local seen map, the joins of this level and the
provider counter. -/
structure LevelRes where
  children : List (WModel × JVal)
  seen : List (String × TrackRes)
  joins : List Join
  counter : Nat
deriving Repr

/-- The level pass of `SearchQueryBuilder.getAllJoins` (its
`_forEachQuery` loop): for each relation key not yet seen at this branch
level, track aliases, emit the reference or mapping joins and queue the
sub-filter as a child. -/
def collectLevel (S : Schema) (pc : Bool) (root : WModel) :
    List (String × JVal) → List (String × TrackRes) → Nat → LevelRes
  | [], seen, c => ⟨[], seen, [], c⟩
  | (k, v) :: es, seen, c =>
    if isRelationW root k && (seenGet seen k).isNone then
      match trackAliases S pc root k seen c with
      | some (tr, seen₁, c₁) =>
          let R := collectLevel S pc root es seen₁ c₁
          ⟨(tr.modelTo, v) :: R.children, R.seen,
            (if tr.modelThrough.isNone then [joinReference pc tr] else joinMapping pc tr)
              ++ R.joins, R.counter⟩
      | none => collectLevel S pc root es seen c
    else
      collectLevel S pc root es seen c

/-- Size of a queued children list (termination measure helper). -/
def jsizeC : List (WModel × JVal) → Nat
  | [] => 0
  | (_, v) :: rest => 1 + jsize v + jsizeC rest

/-- `query.and` / `query.or` is present and truthy (controls whether a
relation sub-filter is refed as an order clause at the next level). -/
def hasAndOr (v : JVal) : Bool :=
  truthyField v "and" || truthyField v "or"

/-- The entry list the next `getAllJoins` level iterates for a child: its
`and` and `or` members plus — when neither key is present — the child
query itself refed as the next level's order list. -/
def childEntries (v : JVal) : List (String × JVal) :=
  ((jarrField v "and" ++ jarrField v "or") ++ (if hasAndOr v then [] else [v])).flatMap
    entriesOf

theorem jget_mem {kvs : List (String × JVal)} {k : String} {w : JVal}
    (h : jget kvs k = some w) : (k, w) ∈ kvs := by
  induction kvs with
  | nil => simp [jget] at h
  | cons kv rest ih =>
      cases kv with
      | mk k₀ v₀ =>
          by_cases hk : k₀ = k
          · subst hk
            simp [jget] at h
            simp [h]
          · simp [jget, hk] at h
            exact List.mem_cons_of_mem _ (ih h)

theorem jget_two {kvs : List (String × JVal)} {k₁ k₂ : String} {w₁ w₂ : JVal}
    (hne : k₁ ≠ k₂) (h₁ : jget kvs k₁ = some w₁) (h₂ : jget kvs k₂ = some w₂) :
    1 + jsize w₁ + (1 + jsize w₂) ≤ jsizeE kvs := by
  induction kvs with
  | nil => simp [jget] at h₁
  | cons kv rest ih =>
      obtain ⟨k₀, v₀⟩ := kv
      simp only [jget] at h₁ h₂
      by_cases ha : k₀ = k₁
      · subst ha
        rw [if_pos rfl] at h₁
        rw [if_neg hne] at h₂
        injection h₁ with h₁
        have hm := jsize_of_mem_entries (jget_mem h₂)
        simp only [jsizeE, h₁]
        omega
      · rw [if_neg ha] at h₁
        by_cases hb : k₀ = k₂
        · subst hb
          rw [if_pos rfl] at h₂
          injection h₂ with h₂
          have hm := jsize_of_mem_entries (jget_mem h₁)
          simp only [jsizeE, h₂]
          omega
        · rw [if_neg hb] at h₂
          have := ih h₁ h₂
          simp only [jsizeE]
          omega

/-- The elements when an optional value is an array. -/
def arrOfOpt : Option JVal → List JVal
  | some (.arr xs) => xs
  | _ => []

theorem jarrField_eq_arrOfOpt (v : JVal) (k : String) :
    jarrField v k = arrOfOpt (jfield v k) := by
  unfold jarrField arrOfOpt
  cases jfield v k with
  | none => rfl
  | some w => cases w <;> rfl

theorem arrOfOpt_size_le (w : JVal) : jsizeL (arrOfOpt (some w)) ≤ jsize w := by
  cases w <;> simp [arrOfOpt, jsize, jsizeL]

theorem jget_arr_one (kvs : List (String × JVal)) (key : String) :
    jsizeL (arrOfOpt (jget kvs key)) ≤ jsizeE kvs := by
  induction kvs with
  | nil => simp [jget, arrOfOpt, jsizeL, jsizeE]
  | cons kv rest ih =>
      obtain ⟨k₀, v₀⟩ := kv
      simp only [jget]
      by_cases hk : k₀ = key
      · rw [if_pos hk]
        have := arrOfOpt_size_le v₀
        simp only [jsizeE]
        omega
      · rw [if_neg hk]
        simp only [jsizeE]
        omega

theorem jget_arr_two (kvs : List (String × JVal)) :
    jsizeL (arrOfOpt (jget kvs "and")) + jsizeL (arrOfOpt (jget kvs "or")) ≤ jsizeE kvs := by
  induction kvs with
  | nil => simp [jget, arrOfOpt, jsizeL, jsizeE]
  | cons kv rest ih =>
      obtain ⟨k₀, v₀⟩ := kv
      simp only [jget]
      by_cases ha : k₀ = "and"
      · rw [if_pos ha, if_neg (by rw [ha]; decide)]
        have h₁ := arrOfOpt_size_le v₀
        have h₂ := jget_arr_one rest "or"
        simp only [jsizeE]
        omega
      · rw [if_neg ha]
        by_cases hb : k₀ = "or"
        · rw [if_pos hb]
          have h₁ := arrOfOpt_size_le v₀
          have h₂ := jget_arr_one rest "and"
          simp only [jsizeE]
          omega
        · rw [if_neg hb]
          simp only [jsizeE]
          omega

theorem jarrField_nil_of_not_truthy {v : JVal} {k : String}
    (h : truthyField v k = false) : jarrField v k = [] := by
  unfold truthyField at h
  unfold jarrField
  cases hf : jfield v k with
  | none => simp
  | some w =>
      rw [hf] at h
      cases w <;> simp_all [truthyJ]

theorem flatMap_entriesOf_le (xs : List JVal) :
    jsizeE (xs.flatMap entriesOf) ≤ jsizeL xs := by
  induction xs with
  | nil => simp [jsizeE, jsizeL]
  | cons x rest ih =>
      have hx := jsizeE_entriesOf_le x
      simp only [List.flatMap_cons, jsizeE_append, jsizeL]
      omega

theorem childEntries_le (v : JVal) : jsizeE (childEntries v) ≤ jsize v := by
  unfold childEntries
  by_cases h : hasAndOr v = true
  · simp only [h, if_true, List.append_nil]
    have hle := flatMap_entriesOf_le (jarrField v "and" ++ jarrField v "or")
    rw [jsizeL_append] at hle
    have hbound := jget_arr_two (entriesOf v)
    have hbound2 : jsizeL (jarrField v "and") + jsizeL (jarrField v "or") ≤
        jsizeE (entriesOf v) := by
      rw [jarrField_eq_arrOfOpt, jarrField_eq_arrOfOpt]
      exact hbound
    have hE := jsizeE_entriesOf_le v
    omega
  · simp only [Bool.not_eq_true] at h
    have hand : truthyField v "and" = false := by
      by_contra hc
      simp only [Bool.not_eq_false] at hc
      simp [hasAndOr, hc] at h
    have hor : truthyField v "or" = false := by
      by_contra hc
      simp only [Bool.not_eq_false] at hc
      simp [hasAndOr, hc] at h
    rw [jarrField_nil_of_not_truthy hand, jarrField_nil_of_not_truthy hor]
    simp only [h, List.nil_append, Bool.false_eq_true, if_false]
    have := jsizeE_entriesOf_le v
    simp only [List.flatMap_cons, List.flatMap_nil, List.append_nil]
    omega

theorem collectLevel_children_size (S : Schema) (pc : Bool) (root : WModel)
    (es : List (String × JVal)) (seen : List (String × TrackRes)) (c : Nat) :
    jsizeC (collectLevel S pc root es seen c).children ≤ jsizeE es := by
  induction es generalizing seen c with
  | nil => simp [collectLevel, jsizeC]
  | cons e rest ih =>
      obtain ⟨k, v⟩ := e
      rw [collectLevel]
      have hrest : jsizeE rest ≤ jsizeE ((k, v) :: rest) := by
        simp only [jsizeE]; omega
      by_cases hg : (isRelationW root k && (seenGet seen k).isNone) = true
      · rw [if_pos hg]
        cases htr : trackAliases S pc root k seen c with
        | none => exact Nat.le_trans (ih seen c) hrest
        | some res =>
            obtain ⟨tr, seen₁, c₁⟩ := res
            simp only [jsizeC]
            have := ih seen₁ c₁
            simp only [jsizeE]
            omega
      · rw [if_neg hg]
        exact Nat.le_trans (ih seen c) hrest

mutual

/-- `SearchQueryBuilder.getAllJoins` over the flattened entry list of its
`and ++ or ++ order` filter objects: collect the level's joins, then
append the joins of every queued child level. -/
def getAllJoinsE (S : Schema) (pc : Bool) (root : WModel)
    (entries : List (String × JVal)) (c : Nat) : List Join × Nat :=
  let R := collectLevel S pc root entries [] c
  let rest := joinChildren S pc R.children R.counter
  (R.joins ++ rest.1, rest.2)
termination_by 2 * jsizeE entries + 1
decreasing_by
  simp_wf
  have := collectLevel_children_size S pc root entries [] c
  omega

/-- The `children.reduce` loop of `getAllJoins`: recurse into each child
with its `and`/`or` members (or the refed child itself), threading the
alias counter. -/
def joinChildren (S : Schema) (pc : Bool) :
    List (WModel × JVal) → Nat → List Join × Nat
  | [], c => ([], c)
  | (m, v) :: cs, c =>
      let r := getAllJoinsE S pc m (childEntries v) c
      let rr := joinChildren S pc cs r.2
      (r.1 ++ rr.1, rr.2)
termination_by cs _ => 2 * jsizeC cs
decreasing_by
  all_goals
    simp_wf
    have hce := childEntries_le v
    simp [jsizeC]
    try omega

end

/-- `SearchQueryBuilder.getAllJoins` on a normalized query object and an
order clause list. -/
def getAllJoins (S : Schema) (pc : Bool) (root : WModel) (q : JVal)
    (order : List JVal) (c : Nat) : List Join × Nat :=
  getAllJoinsE S pc root
    ((jarrField q "and" ++ jarrField q "or" ++ order).flatMap entriesOf) c

/-- A predicate fragment appended to the knex builder (external library,
modelled as the list of fragments the source appends). -/
inductive WherePred where
  | whereEq (property : String) (value : JVal)
  | whereRaw (sql : String) (property : String) (value : JVal)
  | whereBetween (property : String) (value : JVal)
  | whereIn (property : String) (value : JVal)
  | whereNotIn (property : String) (value : JVal)
deriving Repr

/-- Aggregate kind used by the order-by indirection. -/
inductive AggKind where
  | min : AggKind
  | max : AggKind
deriving Repr, DecidableEq

/-- The knex query builder, modelled as the fragments accumulated on it:
base table, selected and grouped columns, joins (left-flag, table, keys),
where fragments, aggregate columns, order-by clauses, limit and offset. -/
structure QB where
  table : String
  selects : List String
  groupBys : List String
  joins : List (Bool × String × String × String)
  wheres : List WherePred
  aggs : List (String × AggKind × String)
  orders : List (String × JVal)
  limitV : Option JVal
  offsetV : Option JVal
deriving Repr

/-- The empty builder over a table. -/
def QB.base (table : String) : QB := ⟨table, [], [], [], [], [], [], none, none⟩

def addWhere (b : QB) (p : WherePred) : QB := { b with wheres := b.wheres ++ [p] }

def addJoin (b : QB) (isLeft : Bool) (table keyFrom keyTo : String) : QB :=
  { b with joins := b.joins ++ [(isLeft, table, keyFrom, keyTo)] }

/-- The supported operator list of `SearchQueryBuilder`'s constructor, in
its declared order. -/
def supportedOperators : List String :=
  ["=", "neq", "lt", "lte", "gt", "gte", "like", "nlike", "ilike", "nilike",
    "inq", "nin", "between", "regexp"]

/-- The PostgreSQL operator map of the source. -/
def operatorMapPostgresql : List (String × String) :=
  [("neq", "!="), ("gt", ">"), ("lt", "<"), ("gte", ">="), ("lte", "<="),
    ("like", "like"), ("ilike", "ilike"), ("nlike", "not like"),
    ("nilike", "not ilike"), ("regexp", "~"), ("iregexp", "~*")]

/-- The MySQL operator map of the source. -/
def operatorMapMysql : List (String × String) :=
  [("neq", "!="), ("gt", ">"), ("lt", "<"), ("gte", ">="), ("lte", "<="),
    ("like", "like binary"), ("ilike", "like"), ("nlike", "not like binary"),
    ("nilike", "not like"), ("regexp", "regexp binary"), ("iregexp", "regexp")]

/-- `SearchQueryBuilder.getOperatorMap` via the model's connector name
(an unsupported connector resolves to no map; the source would fault). -/
def getOperatorMap (w : WModel) : List (String × String) :=
  match w.model.connectorName with
  | "postgresql" => operatorMapPostgresql
  | "mysql" => operatorMapMysql
  | _ => []

/-- Map access `operatorMap[op]`; a missing key renders as the string
JavaScript would interpolate for `undefined`. -/
def opLookup (m : List (String × String)) (k : String) : String :=
  match m.find? (fun p => p.1 = k) with
  | some p => p.2
  | none => "undefined"

/-- `Object.prototype.hasOwnProperty.call(value, op)`. -/
def hasOwnJ (v : JVal) (k : String) : Bool := (jfield v k).isSome

mutual

/-- `JSON.stringify` of a value (string escaping approximated). -/
def jstr : JVal → String
  | .null => "null"
  | .bool b => if b then "true" else "false"
  | .num n => toString n
  | .str s => "\"" ++ s ++ "\""
  | .arr xs => "[" ++ jstrL xs ++ "]"
  | .obj kvs => "\x7b" ++ jstrE kvs ++ "\x7d"

def jstrL : List JVal → String
  | [] => ""
  | [x] => jstr x
  | x :: y :: rest => jstr x ++ "," ++ jstrL (y :: rest)

def jstrE : List (String × JVal) → String
  | [] => ""
  | [(k, v)] => "\"" ++ k ++ "\":" ++ jstr v
  | (k, v) :: e :: rest => "\"" ++ k ++ "\":" ++ jstr v ++ "," ++ jstrE (e :: rest)

end

/-- The component's error classes (`src/error.js`, not under the
available sources; modelled from the spec's error taxonomy). -/
inductive SearchErr where
  | unknownPropertyError (modelName propertyName : String)
  | unknownOperatorError (message : String)
deriving Repr, DecidableEq

/-- The `switch (operator)` statement of `applyPropertyFilter`: one
predicate fragment per supported operator, with the default branch
raising `UnknownOperatorError` (naming the property and the raw value). -/
def applyOperator (operatorMap : List (String × String)) (op : String)
    (content : JVal) (property : String) (value : JVal) (b : QB) :
    Except SearchErr QB :=
  if op = "=" then .ok (addWhere b (.whereEq property content))
  else if op ∈ (["neq", "gt", "lt", "gte", "lte", "like", "ilike", "nlike",
      "nilike"] : List String) then
    let mappedOperator := opLookup operatorMap op
    .ok (addWhere b
      (.whereRaw (":property: " ++ mappedOperator ++ " :value") property content))
  else if op = "between" then .ok (addWhere b (.whereBetween property content))
  else if op = "inq" then .ok (addWhere b (.whereIn property content))
  else if op = "nin" then .ok (addWhere b (.whereNotIn property content))
  else if op = "regexp" then
    let mappedOperator := opLookup operatorMap
      ((if truthyField content "ignoreCase" then "i" else "") ++ op)
    .ok (addWhere b
      (.whereRaw (":property: " ++ mappedOperator ++ " :value") property
        ((jfield content "source").getD .null)))
  else
    .error (.unknownOperatorError
      ("Unknown operator encountered when comparing " ++ property ++ " to "
        ++ jstr value))

/-- `SearchQueryBuilder.applyPropertyFilter`: falsy values are a no-op;
otherwise the first supported operator owned by the value object selects
the predicate fragment via the switch. -/
def applyPropertyFilter (property : String) (value : JVal) (b : QB)
    (rootModel : WModel) : Except SearchErr QB :=
  if truthyJ value = false then .ok b
  else
    let operatorMap := getOperatorMap rootModel
    match supportedOperators.find? (fun op => hasOwnJ value op) with
    | some op => applyOperator operatorMap op ((jfield value op).getD .null) property value b
    | none => .ok b

theorem jarrField_two_le (v : JVal) :
    jsizeL (jarrField v "and") + jsizeL (jarrField v "or") + 1 ≤ jsize v := by
  have hbound := jget_arr_two (entriesOf v)
  have hbound2 : jsizeL (jarrField v "and") + jsizeL (jarrField v "or") ≤
      jsizeE (entriesOf v) := by
    rw [jarrField_eq_arrOfOpt, jarrField_eq_arrOfOpt]
    exact hbound
  have hE := jsizeE_entriesOf_le v
  omega

mutual

/-- `SearchQueryBuilder.applyFilters`: creates the branch-local seen map,
then handles the `and` group and the `or` group with it (the two
`builder.where` wrappers of the source group the fragments; the knex
grouping itself is outside the modelled fragments). -/
def applyFiltersL (S : Schema) (pc : Bool) (root : WModel) (ands ors : List JVal)
    (c : Nat) (b : QB) : Except SearchErr (Nat × QB) :=
  match handleFEntries S pc root (ands.flatMap entriesOf) [] c b with
  | .error e => .error e
  | .ok (seen₁, c₁, b₁) =>
    match handleFEntries S pc root (ors.flatMap entriesOf) seen₁ c₁ b₁ with
    | .error e => .error e
    | .ok (_, c₂, b₂) => .ok (c₂, b₂)
termination_by 2 * (jsizeL ands + jsizeL ors) + 1
decreasing_by
  all_goals simp_wf
  · have := flatMap_entriesOf_le ands
    omega
  · have := flatMap_entriesOf_le ors
    omega

/-- `SearchQueryBuilder._handleFilters` over the flattened entries of the
filter objects: relation keys recurse via `applyFilters` on the target
wrapper, property keys apply the operator step, `and`/`or` keys recurse on
the root, anything else is skipped. -/
def handleFEntries (S : Schema) (pc : Bool) (root : WModel) :
    List (String × JVal) → List (String × TrackRes) → Nat → QB →
    Except SearchErr (List (String × TrackRes) × Nat × QB)
  | [], seen, c, b => .ok (seen, c, b)
  | (k, v) :: es, seen, c, b =>
    if isRelationW root k then
      match trackAliases S pc root k seen c with
      | some (tr, seen₁, c₁) =>
        match applyFiltersL S pc tr.modelTo (jarrField v "and") (jarrField v "or") c₁ b with
        | .error e => .error e
        | .ok (c₂, b₂) => handleFEntries S pc root es seen₁ c₂ b₂
      | none => handleFEntries S pc root es seen c b
    else if isPropertyW root k then
      match applyPropertyFilter (getColumnNameW root k pc) v b root with
      | .error e => .error e
      | .ok b₁ => handleFEntries S pc root es seen c b₁
    else if k = "or" || k = "and" then
      match applyFiltersL S pc root (if k = "and" then jelems v else [])
          (if k = "or" then jelems v else []) c b with
      | .error e => .error e
      | .ok (c₁, b₁) => handleFEntries S pc root es seen c₁ b₁
    else handleFEntries S pc root es seen c b
termination_by es _ _ _ => 2 * jsizeE es
decreasing_by
  all_goals
    simp_wf
    try have hj := jarrField_two_le v
    try have hl := jsizeL_jelems_le v
    try have hp := jsize_pos v
    try by_cases hk : k = "and"
    all_goals simp_all [jsizeE, jsizeL]
    all_goals try omega

end

/-- `direction === 'asc'`. -/
def isAscDir : JVal → Bool
  | .str s => s = "asc"
  | _ => false

/-- `SearchQueryBuilder.applyPropertyOrder`: `min` aggregate for an
ascending direction, `max` otherwise, then order by the aggregate alias in
the given direction. -/
def applyPropertyOrder (orderAlias property : String) (direction : JVal) (b : QB) : QB :=
  let b₁ :=
    if isAscDir direction then
      { b with aggs := b.aggs ++ [(orderAlias, AggKind.min, property)] }
    else
      { b with aggs := b.aggs ++ [(orderAlias, AggKind.max, property)] }
  { b₁ with orders := b₁.orders ++ [(orderAlias, direction)] }

/-- `SearchQueryBuilder._handleOrder` over the entries of one order
directive object: the source runs two independent `if`s — a relation key
recurses into the sub-order against the tracked target wrapper (sharing
the order pass's seen map), a property key applies the aggregate order. -/
def handleOrderE (S : Schema) (pc : Bool) (root : WModel) :
    List (String × JVal) → List (String × TrackRes) → Nat → QB →
    List (String × TrackRes) × Nat × QB
  | [], seen, c, b => (seen, c, b)
  | (k, v) :: es, seen, c, b =>
    let step1 :=
      if isRelationW root k then
        match trackAliases S pc root k seen c with
        | some (tr, seen₁, c₁) => handleOrderE S pc tr.modelTo (entriesOf v) seen₁ c₁ b
        | none => (seen, c, b)
      else (seen, c, b)
    let b₂ :=
      if isPropertyW root k then
        applyPropertyOrder (root.aliasName ++ "_" ++ k) (getColumnNameW root k pc) v
          step1.2.2
      else step1.2.2
    handleOrderE S pc root es step1.1 step1.2.1 b₂
termination_by es _ _ _ => jsizeE es
decreasing_by
  all_goals
    simp_wf
    try have hE := jsizeE_entriesOf_le v
    all_goals simp_all [jsizeE]
    all_goals try omega

/-- The `orderClauses.forEach` loop of `SearchQueryBuilder.applyOrder`,
threading the order pass's shared seen map. -/
def applyOrderAux (S : Schema) (pc : Bool) (root : WModel) :
    List JVal → List (String × TrackRes) → Nat → QB →
    List (String × TrackRes) × Nat × QB
  | [], seen, c, b => (seen, c, b)
  | o :: os, seen, c, b =>
      let r := handleOrderE S pc root (entriesOf o) seen c b
      applyOrderAux S pc root os r.1 r.2.1 r.2.2

/-- `SearchQueryBuilder.applyOrder`: a fresh seen map for the order pass. -/
def applyOrder (S : Schema) (pc : Bool) (root : WModel) (orderClauses : List JVal)
    (c : Nat) (b : QB) : Nat × QB :=
  let r := applyOrderAux S pc root orderClauses [] c b
  (r.2.1, r.2.2)

/-- The component configuration recognized by the builder's constructor. -/
structure BuilderCfg where
  rejectUnknownProperties : Bool := false
  preserveColumnCase : Bool := true
  joinMethod : String := "inner"
deriving Repr, DecidableEq

/-- `SearchQueryBuilder.queryRelationsAndProperties`: collect and apply
all joins, then apply the filters, then the order clauses.  The join and
filter alias providers are spawned from the same provider; modelled from
the spec, spawned providers share the parent's uniqueness counter. -/
def queryRelationsAndProperties (S : Schema) (cfg : BuilderCfg) (b : QB)
    (root : WModel) (c : Nat) (query : JVal) (order : List JVal) :
    Except SearchErr QB :=
  let jr := getAllJoins S cfg.preserveColumnCase root query order c
  let b₁ := jr.1.foldl
    (fun acc j => addJoin acc (cfg.joinMethod = "left") j.table j.keyFrom j.keyTo) b
  match applyFiltersL S cfg.preserveColumnCase root (jarrField query "and")
      (jarrField query "or") jr.2 b₁ with
  | .error e => .error e
  | .ok (c₂, b₂) => .ok (applyOrder S cfg.preserveColumnCase root order c₂ b₂).2

/-- Normalizer options: the supported operator set handed over by the
builder's constructor and the unknown-property rejection flag. -/
structure NormOpts where
  supportedOperators : List String
  rejectUnknownProperties : Bool
deriving Repr

/-- Relation lookup on a schema entity (normalizer side). -/
def getRelationM (E : ModelDef) (k : String) : Option RelDef :=
  E.relations.find? (fun r => r.name = k)

/-- Property membership on a schema entity (normalizer side). -/
def isPropertyM (E : ModelDef) (k : String) : Bool :=
  E.properties.contains k

/-- An explicit `and` node. -/
def mkAnd (ms : List JVal) : JVal := .obj [("and", .arr ms)]

/-- An explicit `or` node. -/
def mkOr (ms : List JVal) : JVal := .obj [("or", .arr ms)]

/-- Modelled from the spec: a delimited `regexp` string such as
`/pattern/i` is parsed into a pattern object carrying the source text and
the case-insensitivity flag. -/
def parseRegexpStr (s : String) : JVal :=
  if s.startsWith "/" then
    let body := s.data.drop 1
    let flags := (body.reverse.takeWhile (fun c => c != '/')).reverse
    if flags.length = body.length then
      .obj [("source", .str (String.mk body)), ("ignoreCase", .bool false)]
    else
      .obj [("source", .str (String.mk (body.take (body.length - flags.length - 1)))),
        ("ignoreCase", .bool (flags.contains 'i'))]
  else .obj [("source", .str s), ("ignoreCase", .bool false)]

/-- Values already in pattern shape pass through unchanged. -/
def parseRegexp (w : JVal) : JVal :=
  match w with
  | .str s => parseRegexpStr s
  | _ => w

/-- Modelled from the spec: an operator object passes through when every
key is a supported operator (`regexp` values being parsed), else the first
unsupported key fails with `UnknownOperatorError`. -/
def normOps (opts : NormOpts) (E : ModelDef) (k : String) :
    List (String × JVal) → Except SearchErr (List (String × JVal))
  | [] => .ok []
  | (op, w) :: rest =>
      if opts.supportedOperators.contains op then
        match normOps opts E k rest with
        | .error e => .error e
        | .ok r => .ok ((op, if op = "regexp" then parseRegexp w else w) :: r)
      else
        .error (.unknownOperatorError
          ("unsupported operator " ++ op ++ " for property " ++ k ++ " of "
            ++ E.name))

/-- Modelled from the spec: a bare `property: value` leaf becomes
`property: ('=': value)`; an operator object is validated and passed
through. -/
def normValue (opts : NormOpts) (E : ModelDef) (k : String) (v : JVal) :
    Except SearchErr JVal :=
  match v with
  | .obj kvs =>
      match normOps opts E k kvs with
      | .error e => .error e
      | .ok kvs₂ => .ok (.obj kvs₂)
  | other => .ok (.obj [("=", other)])

/-- A normalized sub-filter that came out empty (every leaf dropped);
such relation nodes are themselves dropped. -/
def isEmptySub (v : JVal) : Bool :=
  match v with
  | .obj [("and", .arr [])] => true
  | _ => false

/-- Modelled from the spec: render of one normalized level (root or
relation sub-filter): a level with only `or` members is the bare `or`
node, otherwise the collected members form the `and` group with the `or`
node appended. -/
def renderSub (a o : List JVal) : JVal :=
  if a.isEmpty && !o.isEmpty then mkOr o
  else mkAnd (a ++ (if o.isEmpty then [] else [mkOr o]))

/-- Modelled from the spec: render of a normalized `or`-array member; a
single collected member stays bare (observed output shape of the
normalizer on `or` members). -/
def renderOrMember (a o : List JVal) : JVal :=
  if a.isEmpty && !o.isEmpty then mkOr o
  else
    match a, o with
    | [m], [] => m
    | _, _ => mkAnd (a ++ (if o.isEmpty then [] else [mkOr o]))

mutual

/-- Modelled from the spec (`SearchQueryNormalizer`): collect the
normalized `and`-group members and `or` members of one level, processing
the raw entries in key order. -/
def normMembers (S : Schema) (opts : NormOpts) (E : ModelDef) :
    List (String × JVal) → Except SearchErr (List JVal × List JVal)
  | [] => .ok ([], [])
  | (k, v) :: rest =>
      match entryContrib S opts E k v with
      | .error e => .error e
      | .ok (a₁, o₁) =>
        match normMembers S opts E rest with
        | .error e => .error e
        | .ok (a₂, o₂) => .ok (a₁ ++ a₂, o₁ ++ o₂)
termination_by es => 2 * jsizeE es
decreasing_by
  all_goals
    simp_wf
    simp [jsizeE]
    try omega

/-- Modelled from the spec: the contribution of one raw entry — explicit
`and` arrays are flattened into the group, `or` arrays become the level's
`or` members, relation leaves recurse against the target entity (dropped
when their sub-filter normalizes away), property leaves are rewritten, and
unknown names are dropped or rejected per configuration. -/
def entryContrib (S : Schema) (opts : NormOpts) (E : ModelDef) (k : String) (v : JVal) :
    Except SearchErr (List JVal × List JVal) :=
  if k = "and" then
    match spliceAnd S opts E (jelems v) with
    | .error e => .error e
    | .ok ms => .ok (ms, [])
  else if k = "or" then
    match normOrList S opts E (jelems v) with
    | .error e => .error e
    | .ok ms => .ok ([], ms)
  else
    match getRelationM E k with
    | some rel =>
        match normSubF S opts (S rel.modelTo) (entriesOf v) with
        | .error e => .error e
        | .ok sub => .ok (if isEmptySub sub then [] else [.obj [(k, sub)]], [])
    | none =>
        if isPropertyM E k then
          match normValue opts E k v with
          | .error e => .error e
          | .ok nv => .ok ([.obj [(k, nv)]], [])
        else if opts.rejectUnknownProperties then
          .error (.unknownPropertyError E.name k)
        else .ok ([], [])
termination_by 2 * jsize v
decreasing_by
  all_goals
    simp_wf
    try have h₁ := jsizeL_jelems_le v
    try have h₂ := jsizeE_entriesOf_le v
    try omega

/-- Modelled from the spec: members of an explicit `and` array are
normalized and spliced into the surrounding group. -/
def spliceAnd (S : Schema) (opts : NormOpts) (E : ModelDef) :
    List JVal → Except SearchErr (List JVal)
  | [] => .ok []
  | x :: xs =>
      match normMembers S opts E (entriesOf x) with
      | .error e => .error e
      | .ok (a, o) =>
          match spliceAnd S opts E xs with
          | .error e => .error e
          | .ok rest => .ok (a ++ (if o.isEmpty then [] else [mkOr o]) ++ rest)
termination_by xs => 2 * jsizeL xs + 1
decreasing_by
  all_goals
    simp_wf
    try have h₁ := jsizeE_entriesOf_le x
    simp [jsizeL]
    try omega

/-- Modelled from the spec: members of an `or` array are normalized
one by one. -/
def normOrList (S : Schema) (opts : NormOpts) (E : ModelDef) :
    List JVal → Except SearchErr (List JVal)
  | [] => .ok []
  | x :: xs =>
      match normOrMember S opts E x with
      | .error e => .error e
      | .ok m =>
          match normOrList S opts E xs with
          | .error e => .error e
          | .ok rest => .ok (m :: rest)
termination_by xs => 2 * jsizeL xs + 1
decreasing_by
  all_goals
    simp_wf
    simp [jsizeL]
    try omega

/-- Modelled from the spec: normalization of one `or`-array member. -/
def normOrMember (S : Schema) (opts : NormOpts) (E : ModelDef) (x : JVal) :
    Except SearchErr JVal :=
  match normMembers S opts E (entriesOf x) with
  | .error e => .error e
  | .ok (a, o) => .ok (renderOrMember a o)
termination_by 2 * jsize x
decreasing_by
  all_goals
    simp_wf
    have h₁ := jsizeE_entriesOf_le x
    try omega

/-- Modelled from the spec: normalization of one level given its raw
entries, rendered as a filter node. -/
def normSubF (S : Schema) (opts : NormOpts) (E : ModelDef)
    (entries : List (String × JVal)) : Except SearchErr JVal :=
  match normMembers S opts E entries with
  | .error e => .error e
  | .ok (a, o) => .ok (renderSub a o)
termination_by 2 * jsizeE entries + 1
decreasing_by
  all_goals
    simp_wf
    try omega

end

/-- Modelled from the spec: `SearchQueryNormalizer.normalizeWhereQuery`. -/
def normalizeWhereQuery (S : Schema) (opts : NormOpts) (modelName : String)
    (w : JVal) : Except SearchErr JVal :=
  normSubF S opts (S modelName) (entriesOf w)

/-- Modelled from the spec: the `ASC`/`DESC` token, case-insensitive,
defaulting to ascending when omitted. -/
def orderDirOf (tok : String) : String :=
  if tok.toLower = "desc" then "desc" else "asc"

/-- Modelled from the spec: a dotted order path is resolved into nested
relation objects ending at the property with its direction. -/
def buildOrderNested : List String → String → JVal
  | [], dir => .str dir
  | [p], dir => .obj [(p, .str dir)]
  | p :: q :: rest, dir => .obj [(p, buildOrderNested (q :: rest) dir)]

/-- Modelled from the spec: parse one `"path.to.property DIRECTION"`
order string. -/
def parseOrderString (s : String) : JVal :=
  let parts := s.splitOn " "
  let path := (parts.headD "").splitOn "."
  let dir :=
    match parts with
    | _ :: d :: _ => orderDirOf d
    | _ => "asc"
  buildOrderNested path dir

/-- Modelled from the spec: `SearchQueryNormalizer.normalizeOrder` accepts
a single order string, an array of strings, or already-structured
directives. -/
def normalizeOrder (order : JVal) : List JVal :=
  match order with
  | .str s => [parseOrderString s]
  | .arr xs => xs.map (fun x =>
      match x with
      | .str s => parseOrderString s
      | other => other)
  | _ => []

/-- A loopback filter object: `where`, `order`, `limit`, `skip`
(absent parts are `null`). -/
structure LbFilter where
  whereQ : JVal := .null
  orderQ : JVal := .null
  limitQ : JVal := .null
  skipQ : JVal := .null
deriving Repr

/-- `SearchQueryBuilder.createRootQuery`: select and group by the root id
column, normalize `where` and `order`, run the passes, then apply limit
and skip when truthy. -/
def createRootQuery (S : Schema) (cfg : BuilderCfg) (root : WModel) (c : Nat)
    (filter : LbFilter) : Except SearchErr QB :=
  let idCol := (getIdPropertiesW root false cfg.preserveColumnCase).headD ""
  let tableName := getAliasedTable root
  let basicSelect := { QB.base tableName with selects := [idCol], groupBys := [idCol] }
  let nopts : NormOpts := ⟨supportedOperators, cfg.rejectUnknownProperties⟩
  match normalizeWhereQuery S nopts root.model.name
      (if truthyJ filter.whereQ then filter.whereQ else .obj []) with
  | .error e => .error e
  | .ok whereN =>
    let order := normalizeOrder filter.orderQ
    match queryRelationsAndProperties S cfg basicSelect root c whereN order with
    | .error e => .error e
    | .ok q =>
      let q₁ := if truthyJ filter.limitQ then { q with limitV := some filter.limitQ } else q
      let q₂ := if truthyJ filter.skipQ then { q₁ with offsetV := some filter.skipQ } else q₁
      .ok q₂

/-- `SearchQueryBuilder.buildQuery`: a fresh alias provider, the root
alias and wrapper, then the root query. -/
def buildQuery (S : Schema) (cfg : BuilderCfg) (modelName : String)
    (filter : LbFilter) : Except SearchErr QB :=
  let p := createAliasB 0 modelName none false
  let root : WModel := ⟨S modelName, p.1⟩
  createRootQuery S cfg root p.2 filter

/-! ### A concrete schema instance (the test suite's book world) used by
the instance theorems below. -/

/-- Fallback entity of the registry. -/
def dummyModel : ModelDef := ⟨"", "", "", [], [], "", []⟩

def bookModel : ModelDef :=
  ⟨"Book", "public.book", "postgresql",
    ["id", "title", "publisherId", "mainAuthorId"],
    [⟨"authors", "id", "bookId", "authorId", "Author", some "AuthorBook"⟩,
     ⟨"ratings", "id", "bookId", "", "Rating", none⟩,
     ⟨"pages", "id", "bookId", "", "Page", none⟩,
     ⟨"firstPage", "id", "bookId", "", "Page", none⟩,
     ⟨"publisher", "publisherId", "id", "", "Publisher", none⟩],
    "id", []⟩

def authorModel : ModelDef :=
  ⟨"Author", "public.author", "postgresql",
    ["id", "firstName", "lastName"],
    [⟨"books", "id", "authorId", "bookId", "Book", some "AuthorBook"⟩],
    "id", []⟩

def pageModel : ModelDef :=
  ⟨"Page", "public.page", "postgresql", ["id", "number", "bookId"],
    [⟨"book", "bookId", "id", "", "Book", none⟩], "id", []⟩

def publisherModel : ModelDef :=
  ⟨"Publisher", "public.publisher", "postgresql", ["id", "name"],
    [⟨"books", "id", "publisherId", "", "Book", none⟩], "id", []⟩

def ratingModel : ModelDef :=
  ⟨"Rating", "public.rating", "postgresql", ["id", "stars", "bookId"],
    [⟨"book", "bookId", "id", "", "Book", none⟩], "id", []⟩

def abModel : ModelDef :=
  ⟨"AuthorBook", "public.authorbook", "postgresql",
    ["id", "authorId", "bookId"], [], "id", []⟩

def testSchema : Schema := fun n =>
  match n with
  | "Book" => bookModel
  | "Author" => authorModel
  | "Page" => pageModel
  | "Publisher" => publisherModel
  | "Rating" => ratingModel
  | "AuthorBook" => abModel
  | _ => dummyModel

/-- Default normalizer options (rejection disabled). -/
def testNormOpts : NormOpts := ⟨supportedOperators, false⟩

/-- The root wrapper `buildQuery` creates for `Book`. -/
def bookW : WModel := ⟨bookModel, "Book_0"⟩

/-! ### Helper lemmas about the operator switch -/

theorem applyOperator_value_irrel (m : List (String × String)) (op : String)
    (content : JVal) (property : String) (v₁ v₂ : JVal) (b : QB)
    (hmem : op ∈ supportedOperators) :
    applyOperator m op content property v₁ b = applyOperator m op content property v₂ b := by
  simp only [supportedOperators, List.mem_cons, List.not_mem_nil, or_false] at hmem
  rcases hmem with rfl | rfl | rfl | rfl | rfl | rfl | rfl | rfl | rfl | rfl | rfl
    | rfl | rfl | rfl <;> simp [applyOperator]

theorem applyOperator_no_error (m : List (String × String)) (op : String)
    (content : JVal) (property : String) (value : JVal) (b : QB) (e : SearchErr)
    (hmem : op ∈ supportedOperators) :
    applyOperator m op content property value b ≠ .error e := by
  simp only [supportedOperators, List.mem_cons, List.not_mem_nil, or_false] at hmem
  rcases hmem with rfl | rfl | rfl | rfl | rfl | rfl | rfl | rfl | rfl | rfl | rfl
    | rfl | rfl | rfl <;> simp [applyOperator]

theorem applyOperator_appends (m : List (String × String)) (op : String)
    (content : JVal) (property : String) (value : JVal) (b : QB)
    (hmem : op ∈ supportedOperators) :
    ∃ p, applyOperator m op content property value b =
      .ok { b with wheres := b.wheres ++ [p] } := by
  simp only [supportedOperators, List.mem_cons, List.not_mem_nil, or_false] at hmem
  rcases hmem with rfl | rfl | rfl | rfl | rfl | rfl | rfl | rfl | rfl | rfl | rfl
    | rfl | rfl | rfl <;> exact ⟨_, rfl⟩

/-- C8: for every property leaf whose normalized value is falsy (null,
false, 0, the empty string), operator application adds no predicate and
returns without error, leaving the query unchanged. -/
theorem c8_falsy_value_noop :
    ∀ (property : String) (value : JVal) (b : QB) (root : WModel),
      truthyJ value = false → applyPropertyFilter property value b root = .ok b := by
  intro p v b r h
  simp [applyPropertyFilter, h]

/-- Witness for C8 at the concrete falsy value `null`. -/
theorem c8_witness :
    truthyJ JVal.null = false ∧
    applyPropertyFilter "Book_0.title" JVal.null (QB.base "t") bookW =
      .ok (QB.base "t") :=
  ⟨rfl, c8_falsy_value_noop "Book_0.title" JVal.null (QB.base "t") bookW rfl⟩

/-- C5 counterexample: a truthy value object carrying only the
unsupported operator `foo` does not fail with `UnknownOperatorError` —
operator application returns the builder unchanged, silently ignoring the
leaf. -/
theorem c5_counterexample :
    applyPropertyFilter "Book_0.title" (JVal.obj [("foo", JVal.num 1)])
      (QB.base "t") bookW = .ok (QB.base "t") := by
  rfl

/-- C5 (amended): a truthy value object with no supported operator is
silently ignored (no predicate, no error), and operator application can
never return `UnknownOperatorError` at all — the default switch branch is
unreachable because the operator is selected from the supported list. -/
theorem c5_unsupported_operator_ignored :
    (∀ (property : String) (value : JVal) (b : QB) (root : WModel),
        truthyJ value = true →
        supportedOperators.find? (fun op => hasOwnJ value op) = none →
        applyPropertyFilter property value b root = .ok b) ∧
    (∀ (property : String) (value : JVal) (b : QB) (root : WModel) (e : SearchErr),
        applyPropertyFilter property value b root ≠ .error e) := by
  constructor
  · intro p v b r ht hf
    simp [applyPropertyFilter, ht, hf]
  · intro p v b r e
    unfold applyPropertyFilter
    by_cases ht : truthyJ v = false
    · simp [ht]
    · simp only [ht, if_false]
      cases hf : supportedOperators.find? (fun op => hasOwnJ v op) with
      | none => simp
      | some op =>
          exact applyOperator_no_error _ op _ p v b e (List.mem_of_find?_eq_some hf)

/-- Witness for the amended C5: the `foo`-only leaf satisfies the
hypotheses and is ignored. -/
theorem c5_witness :
    truthyJ (JVal.obj [("foo", JVal.num 1)]) = true ∧
    applyPropertyFilter "p" (JVal.obj [("foo", JVal.num 1)]) (QB.base "t") bookW =
      .ok (QB.base "t") :=
  ⟨rfl, c5_unsupported_operator_ignored.1 "p" (JVal.obj [("foo", JVal.num 1)])
    (QB.base "t") bookW rfl rfl⟩

theorem find?_key_single {l : List String} {op : String} (hmem : op ∈ l) (w : JVal) :
    l.find? (fun o => hasOwnJ (JVal.obj [(op, w)]) o) = some op := by
  induction l with
  | nil => cases hmem
  | cons h t ih =>
      by_cases hh : op = h
      · subst hh
        have : hasOwnJ (JVal.obj [(op, w)]) op = true := by
          simp [hasOwnJ, jfield, entriesOf, jget]
        simp [List.find?, this]
      · have hfalse : hasOwnJ (JVal.obj [(op, w)]) h = false := by
          simp [hasOwnJ, jfield, entriesOf, jget, hh]
        have hmt : op ∈ t := by
          rcases List.mem_cons.mp hmem with h₀ | h₀
          · exact absurd h₀ hh
          · exact h₀
        simp [List.find?, hfalse, ih hmt]

/-- C10: when a normalized leaf value carries several supported operator
keys, operator application adds exactly one predicate — the one for the
operator that comes first in the fixed supported-operator order — and the
other operators in the object are silently ignored (the result only
depends on the selected operator and its content). -/
theorem c10_first_operator_wins :
    ∀ (property : String) (kvs : List (String × JVal)) (b : QB) (root : WModel)
      (op : String),
      supportedOperators.find? (fun o => hasOwnJ (JVal.obj kvs) o) = some op →
      supportedOperators = ["=", "neq", "lt", "lte", "gt", "gte", "like", "nlike",
          "ilike", "nilike", "inq", "nin", "between", "regexp"] ∧
      applyPropertyFilter property (JVal.obj kvs) b root =
        applyPropertyFilter property
          (JVal.obj [(op, (jget kvs op).getD JVal.null)]) b root ∧
      ∃ p, applyPropertyFilter property (JVal.obj kvs) b root =
        .ok { b with wheres := b.wheres ++ [p] } := by
  intro property kvs b root op hf
  have hmem := List.mem_of_find?_eq_some hf
  have hsingle := find?_key_single hmem ((jget kvs op).getD JVal.null)
  refine ⟨rfl, ?_, ?_⟩
  · rw [applyPropertyFilter, applyPropertyFilter]
    simp only [truthyJ, Bool.true_eq_false, if_false, hf, hsingle]
    have hcontent : (jfield (JVal.obj [(op, (jget kvs op).getD JVal.null)]) op).getD JVal.null
        = (jfield (JVal.obj kvs) op).getD JVal.null := by
      simp [jfield, entriesOf, jget]
    rw [hcontent]
    exact applyOperator_value_irrel _ op _ property _ _ b hmem
  · rw [applyPropertyFilter]
    simp only [truthyJ, Bool.true_eq_false, if_false, hf]
    exact applyOperator_appends _ op _ property _ b hmem

/-- Witness for C10: `lt` precedes `gt` in the fixed order, so only the
`lt` predicate is produced from a leaf carrying both. -/
theorem c10_witness :
    supportedOperators.find?
        (fun o => hasOwnJ (JVal.obj [("lt", JVal.num 5), ("gt", JVal.num 1)]) o) =
      some "lt" ∧
    applyPropertyFilter "p" (JVal.obj [("lt", JVal.num 5), ("gt", JVal.num 1)])
        (QB.base "t") bookW =
      applyPropertyFilter "p" (JVal.obj [("lt", JVal.num 5)]) (QB.base "t") bookW :=
  ⟨rfl, (c10_first_operator_wins "p" [("lt", JVal.num 5), ("gt", JVal.num 1)]
    (QB.base "t") bookW "lt" rfl).2.1⟩

theorem append_underscore_ne_append_dot (x k c : String) :
    x ++ "_" ++ k ≠ x ++ "." ++ c := by
  intro h
  have hdata := congrArg String.data h
  have h₁ : ("_" : String).data = ['_'] := rfl
  have h₂ : ("." : String).data = ['.'] := rfl
  simp only [String.data_append, h₁, h₂, List.append_assoc, List.singleton_append] at hdata
  have := List.append_cancel_left hdata
  simp at this

/-- C6: an order directive targeting a property adds a freshly aliased
aggregate column — `min(column)` when the direction is `asc`, `max(column)`
when it is `desc` — and orders the query by that aggregate alias in the
given direction; the order-by never references the raw joined column,
whose qualified name differs from the aggregate alias. -/
theorem c6_order_aggregate_alias :
    ∀ (S : Schema) (pc : Bool) (root : WModel) (k : String) (dirv : JVal)
      (es : List (String × JVal)) (seen : List (String × TrackRes)) (c : Nat) (b : QB),
      isPropertyW root k = true → isRelationW root k = false →
      (handleOrderE S pc root ((k, dirv) :: es) seen c b =
        handleOrderE S pc root es seen c
          (applyPropertyOrder (root.aliasName ++ "_" ++ k) (getColumnNameW root k pc)
            dirv b)) ∧
      (dirv = JVal.str "asc" →
        applyPropertyOrder (root.aliasName ++ "_" ++ k) (getColumnNameW root k pc) dirv b =
          { b with
              aggs := b.aggs ++
                [(root.aliasName ++ "_" ++ k, AggKind.min, getColumnNameW root k pc)],
              orders := b.orders ++ [(root.aliasName ++ "_" ++ k, dirv)] }) ∧
      (dirv = JVal.str "desc" →
        applyPropertyOrder (root.aliasName ++ "_" ++ k) (getColumnNameW root k pc) dirv b =
          { b with
              aggs := b.aggs ++
                [(root.aliasName ++ "_" ++ k, AggKind.max, getColumnNameW root k pc)],
              orders := b.orders ++ [(root.aliasName ++ "_" ++ k, dirv)] }) ∧
      (root.aliasName ++ "_" ++ k ≠ getColumnNameW root k pc) := by
  intro S pc root k dirv es seen c b hprop hrel
  refine ⟨?_, ?_, ?_, ?_⟩
  · rw [handleOrderE]
    simp [hrel, hprop]
  · intro hd
    subst hd
    simp [applyPropertyOrder, isAscDir]
  · intro hd
    subst hd
    simp [applyPropertyOrder, isAscDir]
  · rw [getColumnNameW]
    exact append_underscore_ne_append_dot root.aliasName k _

/-- Witness for C6 at the concrete `Book.title asc` directive. -/
theorem c6_witness :
    isPropertyW bookW "title" = true ∧
    applyPropertyOrder ("Book_0" ++ "_" ++ "title") (getColumnNameW bookW "title" true)
        (JVal.str "asc") (QB.base "t") =
      { QB.base "t" with
          aggs := [("Book_0" ++ "_" ++ "title", AggKind.min, getColumnNameW bookW "title" true)],
          orders := [("Book_0" ++ "_" ++ "title", JVal.str "asc")] } :=
  ⟨rfl, (c6_order_aggregate_alias testSchema true bookW "title" (JVal.str "asc")
    [] [] 0 (QB.base "t") rfl rfl).2.1 rfl⟩

/-- One `createAlias` request: the model name, the optional relation name
and the optional through-model name. -/
structure AliasReq where
  model : String
  relationName : Option String
  through : Option String
deriving Repr, DecidableEq

/-- Modelled from the spec: a sequence of `createAlias` calls against one
provider (or any provider spawned from it — spawned providers share the
uniqueness counter), threading the counter. -/
def runCreateAliases : List AliasReq → Nat → List String × Nat
  | [], c => ([], c)
  | r :: rs, c =>
      let a := mkAliasStr (aliasBase r.model r.relationName r.through) c
      let q := runCreateAliases rs (c + 1)
      (a :: q.1, q.2)

theorem runCreateAliases_mem_ge (rs : List AliasReq) (c : Nat) (a : String)
    (h : a ∈ (runCreateAliases rs c).1) : c ≤ aliasIdx a := by
  induction rs generalizing c with
  | nil => simp [runCreateAliases] at h
  | cons r rest ih =>
      simp only [runCreateAliases, List.mem_cons] at h
      rcases h with h | h
      · subst h
        rw [aliasIdx_mkAliasStr]
      · exact Nat.le_trans (by omega) (ih (c + 1) h)

/-- C7: every sequence of `createAlias` calls on one provider and its
(transitively) spawned providers within one `buildQuery` yields pairwise
distinct aliases, and the alias sequence is a deterministic function of
the call sequence: the i-th alias is the i-th request's debuggable base
stamped with counter value `c + i`. -/
theorem c7_alias_uniqueness :
    ∀ (reqs : List AliasReq) (c : Nat),
      (runCreateAliases reqs c).2 = c + reqs.length ∧
      (runCreateAliases reqs c).1 =
        reqs.mapIdx (fun i r =>
          mkAliasStr (aliasBase r.model r.relationName r.through) (c + i)) ∧
      (runCreateAliases reqs c).1.Nodup := by
  intro reqs
  induction reqs with
  | nil => intro c; simp [runCreateAliases]
  | cons r rest ih =>
      intro c
      obtain ⟨hlen, hmap, hnodup⟩ := ih (c + 1)
      refine ⟨?_, ?_, ?_⟩
      · simp only [runCreateAliases, hlen, List.length_cons]
        omega
      · simp only [runCreateAliases, List.mapIdx_cons, hmap]
        have hfun : (fun i (x : AliasReq) =>
            mkAliasStr (aliasBase x.model x.relationName x.through) (c + 1 + i)) =
            fun i x => mkAliasStr (aliasBase x.model x.relationName x.through) (c + (i + 1)) := by
          funext i x
          congr 1
          omega
        rw [hfun]
        simp
      · simp only [runCreateAliases, List.nodup_cons]
        refine ⟨?_, hnodup⟩
        intro hmem
        have := runCreateAliases_mem_ge rest (c + 1) _ hmem
        rw [aliasIdx_mkAliasStr] at this
        omega

/-- A scalar filter value (no object, no array). -/
def isScalarJ : JVal → Bool
  | .obj _ => false
  | .arr _ => false
  | _ => true

theorem normMembers_bare_scalars (S : Schema) (opts : NormOpts) (E : ModelDef) :
    ∀ kvs : List (String × JVal),
      (∀ kv ∈ kvs, kv.1 ≠ "and" ∧ kv.1 ≠ "or" ∧ getRelationM E kv.1 = none ∧
        isPropertyM E kv.1 = true ∧ isScalarJ kv.2 = true) →
      normMembers S opts E kvs =
        .ok (kvs.map (fun kv => JVal.obj [(kv.1, .obj [("=", kv.2)])]), []) := by
  intro kvs
  induction kvs with
  | nil => intro _; simp [normMembers]
  | cons kv rest ih =>
      intro h
      obtain ⟨hand, hor, hrel, hprop, hscalar⟩ := h kv (List.mem_cons_self kv rest)
      obtain ⟨k, v⟩ := kv
      have hval : normValue opts E k v = .ok (.obj [("=", v)]) := by
        cases v <;> simp_all [isScalarJ, normValue]
      rw [normMembers, entryContrib]
      simp only [hand, hor, if_false, hrel, hprop, if_true, hval,
        ih (fun kv hm => h kv (List.mem_cons_of_mem _ hm)), List.map_cons]
      rfl

/-- C3: a raw where filter consisting solely of bare `property: scalar`
leaves over known properties normalizes to the `and` group of the
equality-rewritten leaves — and nothing else. -/
theorem c3_bare_scalar_normalization :
    ∀ (S : Schema) (opts : NormOpts) (modelName : String)
      (kvs : List (String × JVal)),
      (∀ kv ∈ kvs, kv.1 ≠ "and" ∧ kv.1 ≠ "or" ∧
        getRelationM (S modelName) kv.1 = none ∧
        isPropertyM (S modelName) kv.1 = true ∧ isScalarJ kv.2 = true) →
      normalizeWhereQuery S opts modelName (.obj kvs) =
        .ok (mkAnd (kvs.map (fun kv => JVal.obj [(kv.1, .obj [("=", kv.2)])]))) := by
  intro S opts modelName kvs h
  rw [normalizeWhereQuery, normSubF]
  rw [show entriesOf (JVal.obj kvs) = kvs from rfl]
  rw [normMembers_bare_scalars S opts (S modelName) kvs h]
  simp [renderSub]

/-- Witness for C3 on the `title: 'Halo'` filter of the test suite. -/
theorem c3_witness :
    (∀ kv ∈ ([("title", JVal.str "Halo")] : List (String × JVal)),
      kv.1 ≠ "and" ∧ kv.1 ≠ "or" ∧ getRelationM (testSchema "Book") kv.1 = none ∧
      isPropertyM (testSchema "Book") kv.1 = true ∧ isScalarJ kv.2 = true) ∧
    normalizeWhereQuery testSchema testNormOpts "Book"
        (.obj [("title", JVal.str "Halo")]) =
      .ok (mkAnd [JVal.obj [("title", JVal.obj [("=", JVal.str "Halo")])]]) :=
  ⟨by decide, c3_bare_scalar_normalization testSchema testNormOpts "Book"
    [("title", JVal.str "Halo")] (by decide)⟩

/-- Rejection enabled. -/
def rejectNormOpts : NormOpts := ⟨supportedOperators, true⟩

theorem normMembers_erase_unknown (S : Schema) (opts : NormOpts) (E : ModelDef)
    (hreject : opts.rejectUnknownProperties = false) (k : String) (v : JVal)
    (hk1 : k ≠ "and") (hk2 : k ≠ "or") (hk3 : getRelationM E k = none)
    (hk4 : isPropertyM E k = false) :
    ∀ kvs₁ kvs₂ : List (String × JVal),
      normMembers S opts E (kvs₁ ++ (k, v) :: kvs₂) =
        normMembers S opts E (kvs₁ ++ kvs₂) := by
  intro kvs₁
  induction kvs₁ with
  | nil =>
      intro kvs₂
      simp only [List.nil_append]
      rw [normMembers, entryContrib]
      simp only [hk1, hk2, if_false, hk3, hk4, hreject]
      cases h2 : normMembers S opts E kvs₂ with
      | error e => simp [h2]
      | ok pair => obtain ⟨a, o⟩ := pair; simp [h2]
  | cons e rest ih =>
      intro kvs₂
      obtain ⟨k₀, v₀⟩ := e
      simp only [List.cons_append]
      rw [normMembers]
      conv_rhs => rw [normMembers]
      cases hc : entryContrib S opts E k₀ v₀ with
      | error e => simp [hc]
      | ok pair => simp only [hc]; rw [ih kvs₂]

theorem entryContrib_and (S : Schema) (opts : NormOpts) (E : ModelDef) (v : JVal) :
    entryContrib S opts E "and" v =
      match spliceAnd S opts E (jelems v) with
      | .error e => .error e
      | .ok ms => .ok (ms, []) := by
  rw [entryContrib, if_pos rfl]

theorem entryContrib_or (S : Schema) (opts : NormOpts) (E : ModelDef) (v : JVal) :
    entryContrib S opts E "or" v =
      match normOrList S opts E (jelems v) with
      | .error e => .error e
      | .ok ms => .ok (([] : List JVal), ms) := by
  rw [entryContrib, if_neg (by decide), if_pos rfl]

theorem entryContrib_rel (S : Schema) (opts : NormOpts) (E : ModelDef)
    (k : String) (rel : RelDef) (v : JVal) (hk1 : k ≠ "and") (hk2 : k ≠ "or")
    (hrel : getRelationM E k = some rel) :
    entryContrib S opts E k v =
      match normSubF S opts (S rel.modelTo) (entriesOf v) with
      | .error e => .error e
      | .ok sub => .ok (if isEmptySub sub then [] else [.obj [(k, sub)]], []) := by
  rw [entryContrib, if_neg hk1, if_neg hk2, hrel]

theorem entryContrib_unknown (S : Schema) (opts : NormOpts) (E : ModelDef)
    (k : String) (v : JVal) (hk1 : k ≠ "and") (hk2 : k ≠ "or")
    (hrel : getRelationM E k = none) (hprop : isPropertyM E k = false)
    (hrej : opts.rejectUnknownProperties = true) :
    entryContrib S opts E k v = .error (.unknownPropertyError E.name k) := by
  rw [entryContrib, if_neg hk1, if_neg hk2, hrel]
  simp [hprop, hrej]

/-- An entry whose contribution errors makes the whole level error, as
soon as the preceding entries normalize cleanly. -/
theorem normMembers_error_at (S : Schema) (opts : NormOpts) (E : ModelDef)
    (k : String) (v : JVal) (e : SearchErr)
    (hv : entryContrib S opts E k v = .error e) :
    ∀ kvs₁ : List (String × JVal), (∃ r, normMembers S opts E kvs₁ = .ok r) →
      ∀ kvs₂, normMembers S opts E (kvs₁ ++ (k, v) :: kvs₂) = .error e := by
  intro kvs₁
  induction kvs₁ with
  | nil =>
      intro _ kvs₂
      simp only [List.nil_append]
      rw [normMembers]
      simp [hv]
  | cons hd tl ih =>
      intro hok kvs₂
      obtain ⟨r, hr⟩ := hok
      obtain ⟨k₀, v₀⟩ := hd
      rw [normMembers] at hr
      cases hc : entryContrib S opts E k₀ v₀ with
      | error e₀ => rw [hc] at hr; simp at hr
      | ok pr =>
          obtain ⟨a₁, o₁⟩ := pr
          rw [hc] at hr
          cases ht : normMembers S opts E tl with
          | error e₁ => rw [ht] at hr; simp at hr
          | ok r₂ =>
              simp only [List.cons_append]
              rw [normMembers, hc, ih ⟨r₂, ht⟩ kvs₂]

/-- An `and`-array member whose level errors makes the splice error, as
soon as the preceding members splice cleanly. -/
theorem spliceAnd_error_at (S : Schema) (opts : NormOpts) (E : ModelDef)
    (y : JVal) (e : SearchErr)
    (hy : normMembers S opts E (entriesOf y) = .error e) :
    ∀ xs₁ : List JVal, (∃ r, spliceAnd S opts E xs₁ = .ok r) →
      ∀ xs₂, spliceAnd S opts E (xs₁ ++ y :: xs₂) = .error e := by
  intro xs₁
  induction xs₁ with
  | nil =>
      intro _ xs₂
      simp only [List.nil_append]
      rw [spliceAnd]
      simp [hy]
  | cons x tl ih =>
      intro hok xs₂
      obtain ⟨r, hr⟩ := hok
      rw [spliceAnd] at hr
      cases hc : normMembers S opts E (entriesOf x) with
      | error e₀ => rw [hc] at hr; simp at hr
      | ok pr =>
          obtain ⟨a, o⟩ := pr
          rw [hc] at hr
          cases ht : spliceAnd S opts E tl with
          | error e₁ => rw [ht] at hr; simp at hr
          | ok rest =>
              simp only [List.cons_append]
              rw [spliceAnd, hc, ih ⟨rest, ht⟩ xs₂]

/-- An `or`-array member whose normalization errors makes the list error,
as soon as the preceding members normalize cleanly. -/
theorem normOrList_error_at (S : Schema) (opts : NormOpts) (E : ModelDef)
    (y : JVal) (e : SearchErr)
    (hy : normOrMember S opts E y = .error e) :
    ∀ xs₁ : List JVal, (∃ r, normOrList S opts E xs₁ = .ok r) →
      ∀ xs₂, normOrList S opts E (xs₁ ++ y :: xs₂) = .error e := by
  intro xs₁
  induction xs₁ with
  | nil =>
      intro _ xs₂
      simp only [List.nil_append]
      rw [normOrList]
      simp [hy]
  | cons x tl ih =>
      intro hok xs₂
      obtain ⟨r, hr⟩ := hok
      rw [normOrList] at hr
      cases hc : normOrMember S opts E x with
      | error e₀ => rw [hc] at hr; simp at hr
      | ok m =>
          rw [hc] at hr
          cases ht : normOrList S opts E tl with
          | error e₁ => rw [ht] at hr; simp at hr
          | ok rest =>
              simp only [List.cons_append]
              rw [normOrList, hc, ih ⟨rest, ht⟩ xs₂]

/-- Replacing one entry's value by one with the same contribution leaves
the level's normalization unchanged. -/
theorem normMembers_congr_entry (S : Schema) (opts : NormOpts) (E : ModelDef)
    (k : String) (v v' : JVal)
    (h : entryContrib S opts E k v = entryContrib S opts E k v') :
    ∀ kvs₁ kvs₂, normMembers S opts E (kvs₁ ++ (k, v) :: kvs₂) =
      normMembers S opts E (kvs₁ ++ (k, v') :: kvs₂) := by
  intro kvs₁
  induction kvs₁ with
  | nil =>
      intro kvs₂
      simp only [List.nil_append]
      rw [normMembers]
      conv_rhs => rw [normMembers]
      rw [h]
  | cons hd tl ih =>
      intro kvs₂
      obtain ⟨k₀, v₀⟩ := hd
      simp only [List.cons_append]
      rw [normMembers]
      conv_rhs => rw [normMembers]
      rw [ih kvs₂]

/-- Replacing one `and`-array member's entries by ones with the same
level normalization leaves the splice unchanged. -/
theorem spliceAnd_congr_member (S : Schema) (opts : NormOpts) (E : ModelDef)
    (mkvs mkvs' : List (String × JVal))
    (h : normMembers S opts E mkvs = normMembers S opts E mkvs') :
    ∀ xs₁ xs₂ : List JVal,
      spliceAnd S opts E (xs₁ ++ .obj mkvs :: xs₂) =
        spliceAnd S opts E (xs₁ ++ .obj mkvs' :: xs₂) := by
  intro xs₁
  induction xs₁ with
  | nil =>
      intro xs₂
      simp only [List.nil_append]
      rw [spliceAnd]
      conv_rhs => rw [spliceAnd]
      rw [show entriesOf (JVal.obj mkvs) = mkvs from rfl,
        show entriesOf (JVal.obj mkvs') = mkvs' from rfl, h]
  | cons x tl ih =>
      intro xs₂
      simp only [List.cons_append]
      rw [spliceAnd]
      conv_rhs => rw [spliceAnd]
      rw [ih xs₂]

/-- Replacing one `or`-array member's entries by ones with the same level
normalization leaves the list unchanged. -/
theorem normOrList_congr_member (S : Schema) (opts : NormOpts) (E : ModelDef)
    (mkvs mkvs' : List (String × JVal))
    (h : normMembers S opts E mkvs = normMembers S opts E mkvs') :
    ∀ xs₁ xs₂ : List JVal,
      normOrList S opts E (xs₁ ++ .obj mkvs :: xs₂) =
        normOrList S opts E (xs₁ ++ .obj mkvs' :: xs₂) := by
  have hm : normOrMember S opts E (.obj mkvs) = normOrMember S opts E (.obj mkvs') := by
    rw [normOrMember]
    conv_rhs => rw [normOrMember]
    rw [show entriesOf (JVal.obj mkvs) = mkvs from rfl,
      show entriesOf (JVal.obj mkvs') = mkvs' from rfl, h]
  intro xs₁
  induction xs₁ with
  | nil =>
      intro xs₂
      simp only [List.nil_append]
      rw [normOrList]
      conv_rhs => rw [normOrList]
      rw [hm]
  | cons x tl ih =>
      intro xs₂
      simp only [List.cons_append]
      rw [normOrList]
      conv_rhs => rw [normOrList]
      rw [ih xs₂]

/-- One-step erasure of an unknown-name leaf at any traversal position:
at the current level, inside a member of an explicit `and` or `or` array,
or under a relation leaf against the related entity, nested arbitrarily
deep through these positions. -/
inductive EraseE (S : Schema) : ModelDef → List (String × JVal) → List (String × JVal) → Prop where
  | drop (E : ModelDef) (kvs₁ kvs₂ : List (String × JVal)) (k : String) (v : JVal) :
      k ≠ "and" → k ≠ "or" → getRelationM E k = none → isPropertyM E k = false →
      EraseE S E (kvs₁ ++ (k, v) :: kvs₂) (kvs₁ ++ kvs₂)
  | inAnd (E : ModelDef) (kvs₁ kvs₂ : List (String × JVal)) (xs₁ xs₂ : List JVal)
      (mkvs mkvs' : List (String × JVal)) :
      EraseE S E mkvs mkvs' →
      EraseE S E (kvs₁ ++ ("and", .arr (xs₁ ++ .obj mkvs :: xs₂)) :: kvs₂)
        (kvs₁ ++ ("and", .arr (xs₁ ++ .obj mkvs' :: xs₂)) :: kvs₂)
  | inOr (E : ModelDef) (kvs₁ kvs₂ : List (String × JVal)) (xs₁ xs₂ : List JVal)
      (mkvs mkvs' : List (String × JVal)) :
      EraseE S E mkvs mkvs' →
      EraseE S E (kvs₁ ++ ("or", .arr (xs₁ ++ .obj mkvs :: xs₂)) :: kvs₂)
        (kvs₁ ++ ("or", .arr (xs₁ ++ .obj mkvs' :: xs₂)) :: kvs₂)
  | inRel (E : ModelDef) (kvs₁ kvs₂ : List (String × JVal)) (k : String) (rel : RelDef)
      (mkvs mkvs' : List (String × JVal)) :
      k ≠ "and" → k ≠ "or" → getRelationM E k = some rel →
      EraseE S (S rel.modelTo) mkvs mkvs' →
      EraseE S E (kvs₁ ++ (k, .obj mkvs) :: kvs₂) (kvs₁ ++ (k, .obj mkvs') :: kvs₂)

/-- With rejection disabled, erasing an unknown-name leaf anywhere leaves
the level's normalization unchanged. -/
theorem eraseE_normMembers (S : Schema) (opts : NormOpts)
    (hrej : opts.rejectUnknownProperties = false) :
    ∀ (E : ModelDef) (kvs kvs' : List (String × JVal)), EraseE S E kvs kvs' →
      normMembers S opts E kvs = normMembers S opts E kvs' := by
  intro E kvs kvs' h
  induction h with
  | drop E kvs₁ kvs₂ k v h1 h2 h3 h4 =>
      exact normMembers_erase_unknown S opts E hrej k v h1 h2 h3 h4 kvs₁ kvs₂
  | inAnd E kvs₁ kvs₂ xs₁ xs₂ mkvs mkvs' hsub ih =>
      apply normMembers_congr_entry
      rw [entryContrib_and, entryContrib_and,
        show jelems (JVal.arr (xs₁ ++ JVal.obj mkvs :: xs₂)) =
          xs₁ ++ JVal.obj mkvs :: xs₂ from rfl,
        show jelems (JVal.arr (xs₁ ++ JVal.obj mkvs' :: xs₂)) =
          xs₁ ++ JVal.obj mkvs' :: xs₂ from rfl,
        spliceAnd_congr_member S opts E mkvs mkvs' ih xs₁ xs₂]
  | inOr E kvs₁ kvs₂ xs₁ xs₂ mkvs mkvs' hsub ih =>
      apply normMembers_congr_entry
      rw [entryContrib_or, entryContrib_or,
        show jelems (JVal.arr (xs₁ ++ JVal.obj mkvs :: xs₂)) =
          xs₁ ++ JVal.obj mkvs :: xs₂ from rfl,
        show jelems (JVal.arr (xs₁ ++ JVal.obj mkvs' :: xs₂)) =
          xs₁ ++ JVal.obj mkvs' :: xs₂ from rfl,
        normOrList_congr_member S opts E mkvs mkvs' ih xs₁ xs₂]
  | inRel E kvs₁ kvs₂ k rel mkvs mkvs' h1 h2 h3 hsub ih =>
      apply normMembers_congr_entry
      rw [entryContrib_rel S opts E k rel _ h1 h2 h3,
        entryContrib_rel S opts E k rel _ h1 h2 h3,
        normSubF, normSubF,
        show entriesOf (JVal.obj mkvs) = mkvs from rfl,
        show entriesOf (JVal.obj mkvs') = mkvs' from rfl, ih]

/-- A path from the level's entries to an unknown-name reference that the
traversal reaches first: at each step the preceding entries (and the
preceding `and`/`or` members) normalize cleanly, so the unknown name is
the first failure encountered. The last two indices name the entity and
the offending key of the resulting error. -/
inductive UnkE (S : Schema) (opts : NormOpts) : ModelDef → List (String × JVal) → String → String → Prop where
  | here (E : ModelDef) (kvs₁ kvs₂ : List (String × JVal)) (k : String) (v : JVal) :
      (∃ r, normMembers S opts E kvs₁ = .ok r) →
      k ≠ "and" → k ≠ "or" → getRelationM E k = none → isPropertyM E k = false →
      UnkE S opts E (kvs₁ ++ (k, v) :: kvs₂) E.name k
  | inAnd (E : ModelDef) (kvs₁ kvs₂ : List (String × JVal)) (xs₁ xs₂ : List JVal)
      (mkvs : List (String × JVal)) (m p : String) :
      (∃ r, normMembers S opts E kvs₁ = .ok r) →
      (∃ r, spliceAnd S opts E xs₁ = .ok r) →
      UnkE S opts E mkvs m p →
      UnkE S opts E (kvs₁ ++ ("and", .arr (xs₁ ++ .obj mkvs :: xs₂)) :: kvs₂) m p
  | inOr (E : ModelDef) (kvs₁ kvs₂ : List (String × JVal)) (xs₁ xs₂ : List JVal)
      (mkvs : List (String × JVal)) (m p : String) :
      (∃ r, normMembers S opts E kvs₁ = .ok r) →
      (∃ r, normOrList S opts E xs₁ = .ok r) →
      UnkE S opts E mkvs m p →
      UnkE S opts E (kvs₁ ++ ("or", .arr (xs₁ ++ .obj mkvs :: xs₂)) :: kvs₂) m p
  | inRel (E : ModelDef) (kvs₁ kvs₂ : List (String × JVal)) (k : String) (rel : RelDef)
      (mkvs : List (String × JVal)) (m p : String) :
      (∃ r, normMembers S opts E kvs₁ = .ok r) →
      k ≠ "and" → k ≠ "or" → getRelationM E k = some rel →
      UnkE S opts (S rel.modelTo) mkvs m p →
      UnkE S opts E (kvs₁ ++ (k, .obj mkvs) :: kvs₂) m p

/-- With rejection enabled, a first-reached unknown name makes the
level's normalization fail with exactly its `UnknownPropertyError`. -/
theorem unkE_error (S : Schema) (opts : NormOpts)
    (hrej : opts.rejectUnknownProperties = true) :
    ∀ (E : ModelDef) (kvs : List (String × JVal)) (m p : String),
      UnkE S opts E kvs m p →
      normMembers S opts E kvs = .error (.unknownPropertyError m p) := by
  intro E kvs m p h
  induction h with
  | here E kvs₁ kvs₂ k v hpre h1 h2 h3 h4 =>
      exact normMembers_error_at S opts E k v _
        (entryContrib_unknown S opts E k v h1 h2 h3 h4 hrej) kvs₁ hpre kvs₂
  | inAnd E kvs₁ kvs₂ xs₁ xs₂ mkvs m p hpre hsp hsub ih =>
      refine normMembers_error_at S opts E "and" _ _ ?_ kvs₁ hpre kvs₂
      rw [entryContrib_and,
        show jelems (JVal.arr (xs₁ ++ JVal.obj mkvs :: xs₂)) =
          xs₁ ++ JVal.obj mkvs :: xs₂ from rfl,
        spliceAnd_error_at S opts E (JVal.obj mkvs) _
          (by rw [show entriesOf (JVal.obj mkvs) = mkvs from rfl]; exact ih) xs₁ hsp xs₂]
  | inOr E kvs₁ kvs₂ xs₁ xs₂ mkvs m p hpre hol hsub ih =>
      refine normMembers_error_at S opts E "or" _ _ ?_ kvs₁ hpre kvs₂
      rw [entryContrib_or,
        show jelems (JVal.arr (xs₁ ++ JVal.obj mkvs :: xs₂)) =
          xs₁ ++ JVal.obj mkvs :: xs₂ from rfl,
        normOrList_error_at S opts E (JVal.obj mkvs) _
          (by rw [normOrMember, show entriesOf (JVal.obj mkvs) = mkvs from rfl, ih])
          xs₁ hol xs₂]
  | inRel E kvs₁ kvs₂ k rel mkvs m p hpre h1 h2 h3 hsub ih =>
      refine normMembers_error_at S opts E k _ _ ?_ kvs₁ hpre kvs₂
      rw [entryContrib_rel S opts E k rel _ h1 h2 h3, normSubF,
        show entriesOf (JVal.obj mkvs) = mkvs from rfl, ih]

set_option maxRecDepth 10000 in
/-- C4: with unknown-property rejection enabled, a filter referencing a
name absent from the schema entity in scope — at any traversal position:
with arbitrary known siblings before and after it, inside explicit
`and`/`or` arrays, or nested under relation leaves against related models
at any depth — fails with the `UnknownPropertyError` naming that entity
and key (the first unknown the traversal reaches); with rejection
disabled (the default), erasing such an unknown leaf at any of those
positions does not change the normalized output — the unknown leaf is
absent from it — and query building succeeds end to end. -/
theorem c4_unknown_property_handling :
    (∀ (S : Schema) (opts : NormOpts) (modelName : String)
      (kvs : List (String × JVal)) (m p : String),
      opts.rejectUnknownProperties = true →
      UnkE S opts (S modelName) kvs m p →
      normalizeWhereQuery S opts modelName (.obj kvs) =
        .error (.unknownPropertyError m p)) ∧
    (∀ (S : Schema) (opts : NormOpts) (modelName : String)
      (kvs kvs' : List (String × JVal)),
      opts.rejectUnknownProperties = false →
      EraseE S (S modelName) kvs kvs' →
      normalizeWhereQuery S opts modelName (.obj kvs) =
        normalizeWhereQuery S opts modelName (.obj kvs')) ∧
    buildQuery testSchema {} "Book"
        { whereQ := .obj [("test", .str "fake"), ("title", .str "Halo")] } =
      .ok { QB.base "public.book as Book_0" with
              selects := ["Book_0.id"], groupBys := ["Book_0.id"],
              wheres := [.whereEq "Book_0.title" (.str "Halo")] } := by
  refine ⟨?_, ?_, ?_⟩
  · intro S opts modelName kvs m p hrej h
    rw [normalizeWhereQuery, normSubF,
      show entriesOf (JVal.obj kvs) = kvs from rfl,
      unkE_error S opts hrej (S modelName) kvs m p h]
  · intro S opts modelName kvs kvs' hrej h
    rw [normalizeWhereQuery, normalizeWhereQuery, normSubF, normSubF,
      show entriesOf (JVal.obj kvs) = kvs from rfl,
      show entriesOf (JVal.obj kvs') = kvs' from rfl,
      eraseE_normMembers S opts hrej (S modelName) kvs kvs' h]
  · simp [buildQuery, createRootQuery, normalizeWhereQuery, normSubF, normMembers,
      entryContrib, spliceAnd, normOrList, normOrMember, normValue, normOps, renderSub,
      renderOrMember, isEmptySub, queryRelationsAndProperties, getAllJoins, getAllJoinsE,
      joinChildren, collectLevel, trackAliases, applyFiltersL, handleFEntries,
      applyPropertyFilter, applyOperator, applyOrder, applyOrderAux, handleOrderE,
      normalizeOrder, testSchema, bookModel, QB.base, getAliasedTable, getIdPropertiesW,
      getColumnNameW, columnOf, createAliasB, mkAliasStr, aliasBase, natStr, natDigits,
      digitChar, entriesOf, jget, jfield, jarrField, jelems, truthyJ, truthyField,
      hasOwnJ, isRelationW, getRelationW, isPropertyW, isPropertyM, getRelationM,
      seenGet, hasAndOr, childEntries, mkAnd, mkOr, addWhere, addJoin, supportedOperators,
      List.find?, getOperatorMap, opLookup]
    try constructor
    all_goals try decide

/-- Witness for C4: with rejection enabled, the unknown `bad` behind the
known sibling `title` and under the `pages` relation fails naming
`Page`/`bad`; with rejection disabled, erasing the unknown `test` leaf
under the `pages` relation leaves normalization unchanged. -/
theorem c4_witness :
    normalizeWhereQuery testSchema rejectNormOpts "Book"
        (.obj [("title", .str "Halo"), ("pages", .obj [("bad", .str "x")])]) =
      .error (.unknownPropertyError "Page" "bad") ∧
    normalizeWhereQuery testSchema testNormOpts "Book"
        (.obj [("pages", .obj [("test", .str "fake")])]) =
      normalizeWhereQuery testSchema testNormOpts "Book"
        (.obj [("pages", .obj [])]) := by
  constructor
  · exact c4_unknown_property_handling.1 testSchema rejectNormOpts "Book" _ "Page" "bad"
      rfl
      (UnkE.inRel (testSchema "Book") [("title", JVal.str "Halo")] [] "pages"
        ⟨"pages", "id", "bookId", "", "Page", none⟩ [("bad", JVal.str "x")] "Page" "bad"
        ⟨_, normMembers_bare_scalars testSchema rejectNormOpts (testSchema "Book")
          [("title", JVal.str "Halo")] (by decide)⟩
        (by decide) (by decide) rfl
        (UnkE.here pageModel [] [] "bad" (JVal.str "x")
          ⟨([], []), by rw [normMembers]⟩ (by decide) (by decide) rfl (by decide)))
  · exact c4_unknown_property_handling.2.1 testSchema testNormOpts "Book" _ _ rfl
      (EraseE.inRel (testSchema "Book") [] [] "pages"
        ⟨"pages", "id", "bookId", "", "Page", none⟩ [("test", JVal.str "fake")] []
        (by decide) (by decide) rfl
        (EraseE.drop pageModel [] [] "test" (JVal.str "fake")
          (by decide) (by decide) rfl (by decide)))

/-- The target-side key `_joinMapping` resolves: the reverse-lookup
property when truthy, else the target model's id property. -/
def joinMappingTargetKey (tr : TrackRes) : String :=
  match queriedThroughProperty tr.modelTo tr.relation with
  | some p => if p = "" then tr.modelTo.model.idProperty else p
  | none => tr.modelTo.model.idProperty

/-- C2: a relation leaf whose relation has a through model emits exactly
two joins in order — the pivot table joined on the relation's `keyTo`
first, then the target table joined from the pivot's `keyThrough` — and
the target-side key is the property recovered by the reverse lookup
`getPropertyQueriedThrough` when it returns a (nonempty) property,
otherwise the target model's id column. -/
theorem c2_through_relation_two_joins :
    ∀ (S : Schema) (pc : Bool) (root : WModel) (k : String) (w : JVal)
      (es : List (String × JVal)) (seen : List (String × TrackRes)) (c : Nat)
      (rel : RelDef) (thName : String),
      seenGet seen k = none →
      getRelationW root k = some rel →
      rel.modelThrough = some thName →
      ∃ tr : TrackRes,
        trackAliases S pc root k seen c = some (tr, (k, tr) :: seen, c + 2) ∧
        tr = ⟨getColumnNameW root rel.keyFrom pc,
          ⟨S rel.modelTo, mkAliasStr (aliasBase root.model.name (some rel.name) none) c⟩,
          rel,
          getAliasedTable
            ⟨S rel.modelTo, mkAliasStr (aliasBase root.model.name (some rel.name) none) c⟩,
          some ⟨S thName,
            mkAliasStr (aliasBase root.model.name (some rel.name) (some thName)) (c + 1)⟩⟩ ∧
        (collectLevel S pc root ((k, w) :: es) seen c).joins =
          joinMapping pc tr ++
            (collectLevel S pc root es ((k, tr) :: seen) (c + 2)).joins ∧
        joinMapping pc tr =
          [⟨getAliasedTable
              ⟨S thName,
                mkAliasStr (aliasBase root.model.name (some rel.name) (some thName)) (c + 1)⟩,
            getColumnNameW root rel.keyFrom pc,
            getColumnNameW
              ⟨S thName,
                mkAliasStr (aliasBase root.model.name (some rel.name) (some thName)) (c + 1)⟩
              rel.keyTo pc⟩,
          ⟨getAliasedTable
              ⟨S rel.modelTo, mkAliasStr (aliasBase root.model.name (some rel.name) none) c⟩,
            getColumnNameW
              ⟨S thName,
                mkAliasStr (aliasBase root.model.name (some rel.name) (some thName)) (c + 1)⟩
              rel.keyThrough pc,
            getColumnNameW
              ⟨S rel.modelTo, mkAliasStr (aliasBase root.model.name (some rel.name) none) c⟩
              (joinMappingTargetKey tr) pc⟩] ∧
        (queriedThroughProperty tr.modelTo rel = none →
          joinMappingTargetKey tr = tr.modelTo.model.idProperty) ∧
        (∀ p, queriedThroughProperty tr.modelTo rel = some p → p ≠ "" →
          joinMappingTargetKey tr = p) := by
  intro S pc root k w es seen c rel thName hseen hrel hth
  have htrack : trackAliases S pc root k seen c =
      some (⟨getColumnNameW root rel.keyFrom pc,
        ⟨S rel.modelTo, mkAliasStr (aliasBase root.model.name (some rel.name) none) c⟩,
        rel,
        getAliasedTable
          ⟨S rel.modelTo, mkAliasStr (aliasBase root.model.name (some rel.name) none) c⟩,
        some ⟨S thName,
          mkAliasStr (aliasBase root.model.name (some rel.name) (some thName)) (c + 1)⟩⟩,
        (k, ⟨getColumnNameW root rel.keyFrom pc,
          ⟨S rel.modelTo, mkAliasStr (aliasBase root.model.name (some rel.name) none) c⟩,
          rel,
          getAliasedTable
            ⟨S rel.modelTo, mkAliasStr (aliasBase root.model.name (some rel.name) none) c⟩,
          some ⟨S thName,
            mkAliasStr (aliasBase root.model.name (some rel.name) (some thName)) (c + 1)⟩⟩) :: seen,
        c + 2) := by
    simp only [trackAliases, hseen, hrel, createAliasB, Option.map_some, hth]
    rfl
  refine ⟨_, htrack, rfl, ?_, ?_, ?_, ?_⟩
  · rw [collectLevel]
    have hguard : (isRelationW root k && (seenGet seen k).isNone) = true := by
      simp [isRelationW, hrel, hseen]
    rw [if_pos hguard, htrack]
    rfl
  · rfl
  · intro hq
    rw [joinMappingTargetKey, hq]
  · intro p hq hp
    rw [joinMappingTargetKey, hq]
    simp [hp]

/-- Witness for C2: the `authors` through-relation of `Book` yields the
pivot join and the target join, in order. -/
theorem c2_witness :
    (collectLevel testSchema true bookW [("authors", JVal.obj [])] [] 1).joins =
      [⟨"public.authorbook as Book_authors_AuthorBook_2", "Book_0.id",
        "Book_authors_AuthorBook_2.bookId"⟩,
       ⟨"public.author as Book_authors_1", "Book_authors_AuthorBook_2.authorId",
        "Book_authors_1.id"⟩] := by
  obtain ⟨tr, htrack, htr, hjoins, hmap, h1, h2⟩ :=
    c2_through_relation_two_joins testSchema true bookW "authors" (JVal.obj []) [] [] 1
      ⟨"authors", "id", "bookId", "authorId", "Author", some "AuthorBook"⟩ "AuthorBook"
      rfl rfl rfl
  rw [hjoins, hmap]
  subst htr
  simp [collectLevel, joinMappingTargetKey, queriedThroughProperty,
    getPropertyQueriedThrough, testSchema, authorModel, bookW, bookModel, abModel,
    getAliasedTable, getColumnNameW, columnOf, mkAliasStr, aliasBase, natStr,
    natDigits, digitChar, List.find?]
  try constructor
  all_goals try decide

theorem trackAliases_memo (S : Schema) (pc : Bool) (root : WModel) (k : String)
    (seen : List (String × TrackRes)) (c : Nat) (tr : TrackRes)
    (h : seenGet seen k = some tr) :
    trackAliases S pc root k seen c = some (tr, seen, c) := by
  rw [trackAliases, h]

theorem collectLevel_cons_skip (S : Schema) (pc : Bool) (root : WModel)
    (k : String) (v : JVal) (es : List (String × JVal))
    (seen : List (String × TrackRes)) (c : Nat)
    (hg : (isRelationW root k && (seenGet seen k).isNone) = false) :
    collectLevel S pc root ((k, v) :: es) seen c = collectLevel S pc root es seen c := by
  rw [collectLevel, if_neg (by simp [hg])]

theorem collectLevel_cons_track (S : Schema) (pc : Bool) (root : WModel)
    (k : String) (v : JVal) (es : List (String × JVal))
    (seen seen₁ : List (String × TrackRes)) (c c₁ : Nat) (tr : TrackRes)
    (hg : (isRelationW root k && (seenGet seen k).isNone) = true)
    (htr : trackAliases S pc root k seen c = some (tr, seen₁, c₁)) :
    collectLevel S pc root ((k, v) :: es) seen c =
      ⟨(tr.modelTo, v) :: (collectLevel S pc root es seen₁ c₁).children,
        (collectLevel S pc root es seen₁ c₁).seen,
        (if tr.modelThrough.isNone then [joinReference pc tr] else joinMapping pc tr)
          ++ (collectLevel S pc root es seen₁ c₁).joins,
        (collectLevel S pc root es seen₁ c₁).counter⟩ := by
  rw [collectLevel, if_pos hg, htr]

theorem collectLevel_cons_tracknone (S : Schema) (pc : Bool) (root : WModel)
    (k : String) (v : JVal) (es : List (String × JVal))
    (seen : List (String × TrackRes)) (c : Nat)
    (hg : (isRelationW root k && (seenGet seen k).isNone) = true)
    (htr : trackAliases S pc root k seen c = none) :
    collectLevel S pc root ((k, v) :: es) seen c = collectLevel S pc root es seen c := by
  rw [collectLevel, if_pos hg, htr]

theorem collectLevel_dup (S : Schema) (pc : Bool) (root : WModel) :
    ∀ (es : List (String × JVal)) (seen : List (String × TrackRes)) (c : Nat)
      (k : String) (w : JVal),
      (seenGet (collectLevel S pc root es seen c).seen k).isSome = true →
      collectLevel S pc root (es ++ [(k, w)]) seen c =
        collectLevel S pc root es seen c := by
  intro es
  induction es with
  | nil =>
      intro seen c k w h
      rw [collectLevel] at h
      dsimp only at h
      have hfalse : (isRelationW root k && (seenGet seen k).isNone) = false := by
        cases hs : seenGet seen k with
        | none => rw [hs] at h; simp at h
        | some tr => simp [hs]
      simp only [List.nil_append]
      rw [collectLevel_cons_skip S pc root k w [] seen c hfalse]
  | cons e rest ih =>
      intro seen c k w h
      obtain ⟨k₀, v₀⟩ := e
      simp only [List.cons_append]
      by_cases hg : (isRelationW root k₀ && (seenGet seen k₀).isNone) = true
      · cases htr : trackAliases S pc root k₀ seen c with
        | none =>
            rw [collectLevel_cons_tracknone S pc root k₀ v₀ rest seen c hg htr] at h
            rw [collectLevel_cons_tracknone S pc root k₀ v₀ (rest ++ [(k, w)]) seen c hg htr,
              collectLevel_cons_tracknone S pc root k₀ v₀ rest seen c hg htr]
            exact ih seen c k w h
        | some res =>
            obtain ⟨tr, seen₁, c₁⟩ := res
            rw [collectLevel_cons_track S pc root k₀ v₀ rest seen seen₁ c c₁ tr hg htr] at h
            dsimp only at h
            rw [collectLevel_cons_track S pc root k₀ v₀ (rest ++ [(k, w)]) seen seen₁ c c₁ tr hg htr,
              collectLevel_cons_track S pc root k₀ v₀ rest seen seen₁ c c₁ tr hg htr]
            rw [ih seen₁ c₁ k w h]
      · have hg2 : (isRelationW root k₀ && (seenGet seen k₀).isNone) = false := by
          cases hb : (isRelationW root k₀ && (seenGet seen k₀).isNone)
          · rfl
          · exact absurd hb hg
        rw [collectLevel_cons_skip S pc root k₀ v₀ rest seen c hg2] at h
        rw [collectLevel_cons_skip S pc root k₀ v₀ (rest ++ [(k, w)]) seen c hg2,
          collectLevel_cons_skip S pc root k₀ v₀ rest seen c hg2]
        exact ih seen c k w h

theorem aliasIdx_aliasedTable (t b : String) (n : Nat) :
    aliasIdx (t ++ " as " ++ mkAliasStr b n) = n := by
  have h : t ++ " as " ++ mkAliasStr b n = (t ++ " as " ++ b) ++ "_" ++ natStr n := by
    simp [mkAliasStr, String.append_assoc]
  rw [h, aliasIdx_append_mk]

theorem trackAliases_fresh_joins (S : Schema) (pc : Bool) (root : WModel) (k : String)
    (seen seen₁ : List (String × TrackRes)) (c c₁ : Nat) (tr : TrackRes)
    (hseen : seenGet seen k = none)
    (htr : trackAliases S pc root k seen c = some (tr, seen₁, c₁)) :
    c < c₁ ∧ c₁ ≤ c + 2 ∧
    (∀ j ∈ (if tr.modelThrough.isNone then [joinReference pc tr] else joinMapping pc tr),
      c ≤ aliasIdx j.table ∧ aliasIdx j.table < c₁) ∧
    ((if tr.modelThrough.isNone then [joinReference pc tr] else joinMapping pc tr).map
      (fun j => aliasIdx j.table)).Nodup := by
  rw [trackAliases, hseen] at htr
  cases hrel : getRelationW root k with
  | none => rw [hrel] at htr; simp at htr
  | some rel =>
      rw [hrel] at htr
      dsimp only at htr
      cases hth : rel.modelThrough with
      | none =>
          rw [hth] at htr
          dsimp only at htr
          simp only [Option.some.injEq, Prod.mk.injEq] at htr
          obtain ⟨h₁, h₂, h₃⟩ := htr
          subst h₁
          subst h₃
          dsimp only [Option.isNone_none, if_true]
          simp only [createAliasB, joinReference, getAliasedTable]
          refine ⟨by omega, by omega, ?_, ?_⟩
          · intro j hj
            simp only [if_pos trivial, Option.map_some, Bool.false_eq_true, if_false,
              List.mem_singleton] at hj
            subst hj
            simp only [aliasIdx_aliasedTable]
            omega
          · simp only [if_pos trivial, Option.map_some, Bool.false_eq_true, if_false,
              List.map_cons, List.map_nil]
            simp
      | some thName =>
          rw [hth] at htr
          dsimp only at htr
          simp only [Option.some.injEq, Prod.mk.injEq] at htr
          obtain ⟨h₁, h₂, h₃⟩ := htr
          subst h₁
          subst h₃
          dsimp only [Option.isNone_some, if_false]
          simp only [createAliasB, joinMapping, getAliasedTable]
          refine ⟨by omega, by omega, ?_, ?_⟩
          · intro j hj
            simp only [Bool.false_eq_true, if_false, if_pos trivial, Option.map_some,
              List.mem_cons, List.mem_singleton, List.not_mem_nil, or_false] at hj
            rcases hj with hj | hj <;> subst hj <;>
              simp only [aliasIdx_aliasedTable] <;> omega
          · simp only [Bool.false_eq_true, if_false, if_pos trivial, Option.map_some,
              List.map_cons, List.map_nil, aliasIdx_aliasedTable]
            simp
            try omega

theorem collectLevel_inv (S : Schema) (pc : Bool) (root : WModel) :
    ∀ (es : List (String × JVal)) (seen : List (String × TrackRes)) (c : Nat),
      c ≤ (collectLevel S pc root es seen c).counter ∧
      (∀ j ∈ (collectLevel S pc root es seen c).joins,
        c ≤ aliasIdx j.table ∧
          aliasIdx j.table < (collectLevel S pc root es seen c).counter) ∧
      ((collectLevel S pc root es seen c).joins.map
        (fun j => aliasIdx j.table)).Nodup := by
  intro es
  induction es with
  | nil => intro seen c; simp [collectLevel]
  | cons e rest ih =>
      intro seen c
      obtain ⟨k, v⟩ := e
      by_cases hg : (isRelationW root k && (seenGet seen k).isNone) = true
      · cases htr : trackAliases S pc root k seen c with
        | none =>
            rw [collectLevel_cons_tracknone S pc root k v rest seen c hg htr]
            exact ih seen c
        | some res =>
            obtain ⟨tr, seen₁, c₁⟩ := res
            have hseen : seenGet seen k = none := by
              cases hs : seenGet seen k with
              | none => rfl
              | some t => rw [hs] at hg; simp at hg
            obtain ⟨hlt, hle, hjs, hnd⟩ :=
              trackAliases_fresh_joins S pc root k seen seen₁ c c₁ tr hseen htr
            obtain ⟨ihc, ihj, ihn⟩ := ih seen₁ c₁
            rw [collectLevel_cons_track S pc root k v rest seen seen₁ c c₁ tr hg htr]
            dsimp only
            refine ⟨by omega, ?_, ?_⟩
            · intro j hj
              rcases List.mem_append.mp hj with hj | hj
              · obtain ⟨ha, hb⟩ := hjs j hj
                exact ⟨ha, by omega⟩
              · obtain ⟨ha, hb⟩ := ihj j hj
                exact ⟨by omega, hb⟩
            · rw [List.map_append, List.nodup_append]
              refine ⟨hnd, ihn, ?_⟩
              intro a ha hb
              obtain ⟨j₁, hj₁, rfl⟩ := List.mem_map.mp ha
              obtain ⟨j₂, hj₂, heq⟩ := List.mem_map.mp hb
              have h₁ := (hjs j₁ hj₁).2
              have h₂ := (ihj j₂ hj₂).1
              omega
      · have hg2 : (isRelationW root k && (seenGet seen k).isNone) = false := by
          cases hb : (isRelationW root k && (seenGet seen k).isNone)
          · rfl
          · exact absurd hb hg
        rw [collectLevel_cons_skip S pc root k v rest seen c hg2]
        exact ih seen c

theorem getAllJoinsE_inv : ∀ n : Nat,
    (∀ (S : Schema) (pc : Bool) (root : WModel) (entries : List (String × JVal))
      (c : Nat), 2 * jsizeE entries + 1 ≤ n →
      c ≤ (getAllJoinsE S pc root entries c).2 ∧
      (∀ j ∈ (getAllJoinsE S pc root entries c).1,
        c ≤ aliasIdx j.table ∧ aliasIdx j.table < (getAllJoinsE S pc root entries c).2) ∧
      ((getAllJoinsE S pc root entries c).1.map (fun j => aliasIdx j.table)).Nodup) ∧
    (∀ (S : Schema) (pc : Bool) (cs : List (WModel × JVal)) (c : Nat),
      2 * jsizeC cs ≤ n →
      c ≤ (joinChildren S pc cs c).2 ∧
      (∀ j ∈ (joinChildren S pc cs c).1,
        c ≤ aliasIdx j.table ∧ aliasIdx j.table < (joinChildren S pc cs c).2) ∧
      ((joinChildren S pc cs c).1.map (fun j => aliasIdx j.table)).Nodup) := by
  intro n
  induction n using Nat.strong_induction_on with
  | _ n ih =>
      constructor
      · intro S pc root entries c hm
        obtain ⟨hc, hj, hn⟩ := collectLevel_inv S pc root entries [] c
        have hcs := collectLevel_children_size S pc root entries [] c
        have hq := (ih (2 * jsizeC (collectLevel S pc root entries [] c).children)
            (by omega)).2 S pc (collectLevel S pc root entries [] c).children
            (collectLevel S pc root entries [] c).counter (by omega)
        obtain ⟨hc₂, hj₂, hn₂⟩ := hq
        rw [getAllJoinsE]
        dsimp only
        refine ⟨by omega, ?_, ?_⟩
        · intro j hjm
          rcases List.mem_append.mp hjm with hjm | hjm
          · obtain ⟨ha, hb⟩ := hj j hjm
            exact ⟨ha, by omega⟩
          · obtain ⟨ha, hb⟩ := hj₂ j hjm
            exact ⟨by omega, hb⟩
        · rw [List.map_append, List.nodup_append]
          refine ⟨hn, hn₂, ?_⟩
          intro a ha hb
          obtain ⟨j₁, hj₁, rfl⟩ := List.mem_map.mp ha
          obtain ⟨j₂, hj₂m, heq⟩ := List.mem_map.mp hb
          have h₁ := (hj j₁ hj₁).2
          have h₂ := (hj₂ j₂ hj₂m).1
          omega
      · intro S pc cs c hm
        cases cs with
        | nil => simp [joinChildren]
        | cons hd tl =>
            obtain ⟨m, v⟩ := hd
            have hsz : 2 * jsizeE (childEntries v) + 1 ≤ 2 * jsize v + 1 := by
              have := childEntries_le v
              omega
            have hm₁ : 2 * jsizeE (childEntries v) + 1 < n := by
              simp only [jsizeC] at hm
              omega
            have h1 := (ih (2 * jsizeE (childEntries v) + 1) hm₁).1 S pc m
              (childEntries v) c (by omega)
            obtain ⟨hc₁, hj₁, hn₁⟩ := h1
            have hm₂ : 2 * jsizeC tl < n := by
              simp only [jsizeC] at hm
              have := jsize_pos v
              omega
            have h2 := (ih (2 * jsizeC tl) hm₂).2 S pc tl
              (getAllJoinsE S pc m (childEntries v) c).2 (by omega)
            obtain ⟨hc₂, hj₂, hn₂⟩ := h2
            rw [joinChildren]
            dsimp only
            refine ⟨by omega, ?_, ?_⟩
            · intro j hjm
              rcases List.mem_append.mp hjm with hjm | hjm
              · obtain ⟨ha, hb⟩ := hj₁ j hjm
                exact ⟨ha, by omega⟩
              · obtain ⟨ha, hb⟩ := hj₂ j hjm
                exact ⟨by omega, hb⟩
            · rw [List.map_append, List.nodup_append]
              refine ⟨hn₁, hn₂, ?_⟩
              intro a ha hb
              obtain ⟨j₁, hja, rfl⟩ := List.mem_map.mp ha
              obtain ⟨j₂, hjb, heq⟩ := List.mem_map.mp hb
              have h₁ := (hj₁ j₁ hja).2
              have h₂ := (hj₂ j₂ hjb).1
              omega

/-- A normalized equality leaf on `title`. -/
def titleLeaf : JVal := .obj [("title", .obj [("=", .str "x")])]

/-- Two sibling branches (`pages` and `firstPage`) that each traverse the
same `book` relation of `Page` independently. -/
def sibFilter : JVal :=
  mkAnd [.obj [("pages", mkAnd [.obj [("book", mkAnd [titleLeaf])]])],
         .obj [("firstPage", mkAnd [.obj [("book", mkAnd [titleLeaf])]])]]

set_option maxRecDepth 10000 in
/-- C1: during join collection, a second occurrence of a relation already
tracked at the same branch level produces no additional join, child or
alias (the level pass is unchanged by the duplicate entry, and the
memoized tracking reuses the stored alias record without allocating);
globally, every emitted join carries a freshly allocated alias — the
alias counter indices of all joins of a collection run are pairwise
distinct — so the same relation reached independently in sibling branches
is joined once per branch with its own distinct alias, as the concrete
`pages`/`firstPage` sibling traversals of `book` show. -/
theorem c1_join_dedup_and_sibling_aliases :
    (∀ (S : Schema) (pc : Bool) (root : WModel) (es : List (String × JVal))
      (seen : List (String × TrackRes)) (c : Nat) (k : String) (w : JVal),
      (seenGet (collectLevel S pc root es seen c).seen k).isSome = true →
      collectLevel S pc root (es ++ [(k, w)]) seen c =
        collectLevel S pc root es seen c) ∧
    (∀ (S : Schema) (pc : Bool) (root : WModel) (k : String)
      (seen : List (String × TrackRes)) (c : Nat) (tr : TrackRes),
      seenGet seen k = some tr →
      trackAliases S pc root k seen c = some (tr, seen, c)) ∧
    (∀ (S : Schema) (pc : Bool) (root : WModel) (entries : List (String × JVal))
      (c : Nat),
      ((getAllJoinsE S pc root entries c).1.map (fun j => aliasIdx j.table)).Nodup) ∧
    (getAllJoins testSchema true bookW sibFilter [] 1).1 =
      [⟨"public.page as Book_pages_1", "Book_0.id", "Book_pages_1.bookId"⟩,
       ⟨"public.page as Book_firstPage_2", "Book_0.id", "Book_firstPage_2.bookId"⟩,
       ⟨"public.book as Page_book_3", "Book_pages_1.bookId", "Page_book_3.id"⟩,
       ⟨"public.book as Page_book_4", "Book_firstPage_2.bookId", "Page_book_4.id"⟩] := by
  refine ⟨collectLevel_dup, trackAliases_memo, ?_, ?_⟩
  · intro S pc root entries c
    exact ((getAllJoinsE_inv (2 * jsizeE entries + 1)).1 S pc root entries c
      (le_refl _)).2.2
  · simp [getAllJoins, getAllJoinsE, joinChildren, collectLevel, trackAliases,
      childEntries, jarrField, jfield, entriesOf, jget, jelems, isRelationW,
      getRelationW, testSchema, bookModel, pageModel, createAliasB, mkAliasStr,
      aliasBase, natStr, natDigits, digitChar, seenGet, joinReference, joinMapping,
      getAliasedTable, getColumnNameW, columnOf, hasAndOr, truthyField, truthyJ,
      sibFilter, titleLeaf, mkAnd, bookW, List.find?]
    try constructor
    all_goals try decide

/-- Witness for C1: a second `publisher` entry at the same branch level is
suppressed — join collection of the duplicated entry list equals that of
the deduplicated one — and the memoized tracking returns the stored
alias record without allocating. -/
theorem c1_witness :
    (seenGet (collectLevel testSchema true bookW [("publisher", JVal.obj [])] [] 1).seen
        "publisher").isSome = true ∧
    collectLevel testSchema true bookW
        ([("publisher", JVal.obj [])] ++ [("publisher", JVal.obj [("x", JVal.num 1)])])
        [] 1 =
      collectLevel testSchema true bookW [("publisher", JVal.obj [])] [] 1 := by
  have h : (seenGet (collectLevel testSchema true bookW [("publisher", JVal.obj [])]
      [] 1).seen "publisher").isSome = true := by
    simp [collectLevel, trackAliases, seenGet, isRelationW, getRelationW, testSchema,
      bookModel, createAliasB, mkAliasStr, aliasBase, natStr, natDigits, digitChar,
      List.find?]
  exact ⟨h, c1_join_dedup_and_sibling_aliases.1 testSchema true bookW
    [("publisher", JVal.obj [])] [] 1 "publisher" (JVal.obj [("x", JVal.num 1)]) h⟩

/-- Is the value a string? -/
def isStrJ : JVal → Bool
  | .str _ => true
  | _ => false

/-- Conditions for a normalized property leaf `k: (op: value, ...)` to be
invariant under normalization: a known property (not shadowed by a
relation or group keyword), every operator supported, and `regexp` values
already in parsed pattern shape (not a string). -/
def leafOK (opts : NormOpts) (E : ModelDef) (k : String)
    (vkvs : List (String × JVal)) : Prop :=
  k ≠ "and" ∧ k ≠ "or" ∧ getRelationM E k = none ∧ isPropertyM E k = true ∧
  ∀ p ∈ vkvs, p.1 ∈ opts.supportedOperators ∧ (p.1 = "regexp" → isStrJ p.2 = false)

/-- Syntactic positions of the normalizer's output grammar. -/
inductive NFMode where
  | top : NFMode
  | member : NFMode
  | orMember : NFMode
  | sub : NFMode
deriving Repr, DecidableEq

/-- The normal form produced by the normalizer: leaves are
`property: (operator: value)` objects over known names and supported
operators, grouped under an explicit `and`/`or`; `and`-group members are
leaves, relation nodes over normal (nonempty) sub-filters, or `or` nodes;
`or`-array members additionally allow `and` nodes (with member count ≠ 1,
singleton members staying bare). -/
inductive NF (S : Schema) (opts : NormOpts) : NFMode → ModelDef → JVal → Prop where
  | top_and (E : ModelDef) (ms : List JVal) :
      (∀ x ∈ ms, NF S opts .member E x) → NF S opts .top E (mkAnd ms)
  | top_or (E : ModelDef) (ms : List JVal) :
      ms ≠ [] → (∀ x ∈ ms, NF S opts .orMember E x) → NF S opts .top E (mkOr ms)
  | sub_and (E : ModelDef) (ms : List JVal) :
      ms ≠ [] → (∀ x ∈ ms, NF S opts .member E x) → NF S opts .sub E (mkAnd ms)
  | sub_or (E : ModelDef) (ms : List JVal) :
      ms ≠ [] → (∀ x ∈ ms, NF S opts .orMember E x) → NF S opts .sub E (mkOr ms)
  | mem_leaf (E : ModelDef) (k : String) (vkvs : List (String × JVal)) :
      leafOK opts E k vkvs → NF S opts .member E (.obj [(k, .obj vkvs)])
  | mem_rel (E : ModelDef) (k : String) (rel : RelDef) (sub : JVal) :
      k ≠ "and" → k ≠ "or" → getRelationM E k = some rel →
      NF S opts .sub (S rel.modelTo) sub → NF S opts .member E (.obj [(k, sub)])
  | mem_or (E : ModelDef) (ms : List JVal) :
      ms ≠ [] → (∀ x ∈ ms, NF S opts .orMember E x) → NF S opts .member E (mkOr ms)
  | or_leaf (E : ModelDef) (k : String) (vkvs : List (String × JVal)) :
      leafOK opts E k vkvs → NF S opts .orMember E (.obj [(k, .obj vkvs)])
  | or_rel (E : ModelDef) (k : String) (rel : RelDef) (sub : JVal) :
      k ≠ "and" → k ≠ "or" → getRelationM E k = some rel →
      NF S opts .sub (S rel.modelTo) sub → NF S opts .orMember E (.obj [(k, sub)])
  | or_or (E : ModelDef) (ms : List JVal) :
      ms ≠ [] → (∀ x ∈ ms, NF S opts .orMember E x) → NF S opts .orMember E (mkOr ms)
  | or_and (E : ModelDef) (ms : List JVal) :
      ms.length ≠ 1 → (∀ x ∈ ms, NF S opts .member E x) → NF S opts .orMember E (mkAnd ms)

/-- The `(and-items, or-items)` contribution a normal member produces. -/
def memberSplit (f : JVal) : List JVal × List JVal :=
  match f with
  | .obj [(k, .arr ms)] => if k = "or" then ([], ms) else ([f], [])
  | _ => ([f], [])

/-- A normal member's splice into the surrounding `and` group. -/
def spliceOne (f : JVal) : List JVal :=
  (memberSplit f).1 ++
    (if (memberSplit f).2.isEmpty then [] else [mkOr (memberSplit f).2])

/-- The fixed-point property per grammar position. -/
def NFMotive (S : Schema) (opts : NormOpts) : NFMode → ModelDef → JVal → Prop
  | .top, E, f => normSubF S opts E (entriesOf f) = .ok f
  | .sub, E, f => normSubF S opts E (entriesOf f) = .ok f ∧ isEmptySub f = false
  | .member, E, f =>
      normMembers S opts E (entriesOf f) = .ok (memberSplit f) ∧ spliceOne f = [f]
  | .orMember, E, f => normOrMember S opts E f = .ok f

theorem parseRegexp_of_not_str {w : JVal} (h : isStrJ w = false) : parseRegexp w = w := by
  cases w <;> simp [parseRegexp, isStrJ] at h ⊢

theorem normOps_fixed (opts : NormOpts) (E : ModelDef) (k : String) :
    ∀ vkvs : List (String × JVal),
      (∀ p ∈ vkvs, p.1 ∈ opts.supportedOperators ∧
        (p.1 = "regexp" → isStrJ p.2 = false)) →
      normOps opts E k vkvs = .ok vkvs := by
  intro vkvs
  induction vkvs with
  | nil => intro _; rfl
  | cons p rest ih =>
      intro h
      obtain ⟨op, w⟩ := p
      obtain ⟨hmem, hre⟩ := h (op, w) (List.mem_cons_self _ _)
      rw [normOps]
      rw [if_pos (List.elem_eq_true_of_mem hmem)]
      rw [ih (fun q hq => h q (List.mem_cons_of_mem _ hq))]
      by_cases hop : op = "regexp"
      · rw [if_pos hop, parseRegexp_of_not_str (hre hop)]
      · rw [if_neg hop]

theorem normValue_fixed (opts : NormOpts) (E : ModelDef) (k : String)
    (vkvs : List (String × JVal))
    (h : ∀ p ∈ vkvs, p.1 ∈ opts.supportedOperators ∧
      (p.1 = "regexp" → isStrJ p.2 = false)) :
    normValue opts E k (.obj vkvs) = .ok (.obj vkvs) := by
  rw [normValue, normOps_fixed opts E k vkvs h]

theorem spliceAnd_fixed (S : Schema) (opts : NormOpts) (E : ModelDef) :
    ∀ ms : List JVal,
      (∀ x ∈ ms, normMembers S opts E (entriesOf x) = .ok (memberSplit x) ∧
        spliceOne x = [x]) →
      spliceAnd S opts E ms = .ok ms := by
  intro ms
  induction ms with
  | nil => intro _; rw [spliceAnd]
  | cons x rest ih =>
      intro h
      obtain ⟨hx, hsp⟩ := h x (List.mem_cons_self _ _)
      rw [spliceAnd, hx]
      rw [ih (fun y hy => h y (List.mem_cons_of_mem _ hy))]
      dsimp only
      rw [show (memberSplit x).1 ++
        (if (memberSplit x).2.isEmpty then [] else [mkOr (memberSplit x).2]) ++ rest =
        spliceOne x ++ rest from rfl]
      rw [hsp]
      rfl

theorem normOrList_fixed (S : Schema) (opts : NormOpts) (E : ModelDef) :
    ∀ ms : List JVal,
      (∀ x ∈ ms, normOrMember S opts E x = .ok x) →
      normOrList S opts E ms = .ok ms := by
  intro ms
  induction ms with
  | nil => intro _; rw [normOrList]
  | cons x rest ih =>
      intro h
      rw [normOrList, h x (List.mem_cons_self _ _),
        ih (fun y hy => h y (List.mem_cons_of_mem _ hy))]

theorem nf_fixed (S : Schema) (opts : NormOpts) :
    ∀ (mode : NFMode) (E : ModelDef) (f : JVal),
      NF S opts mode E f → NFMotive S opts mode E f := by
  intro mode E f h
  induction h with
  | top_and E ms hms ih =>
      show normSubF S opts E (entriesOf (mkAnd ms)) = .ok (mkAnd ms)
      have hsp := spliceAnd_fixed S opts E ms ih
      rw [show entriesOf (mkAnd ms) = [("and", .arr ms)] from rfl]
      rw [normSubF, normMembers, entryContrib, if_pos rfl,
        show jelems (.arr ms) = ms from rfl, hsp]
      try dsimp only
      rw [normMembers]
      try dsimp only
      simp [renderSub, mkAnd]
  | top_or E ms hne hms ih =>
      show normSubF S opts E (entriesOf (mkOr ms)) = .ok (mkOr ms)
      have hol := normOrList_fixed S opts E ms ih
      rw [show entriesOf (mkOr ms) = [("or", .arr ms)] from rfl]
      rw [normSubF, normMembers, entryContrib, if_neg (by decide), if_pos rfl,
        show jelems (.arr ms) = ms from rfl, hol]
      try dsimp only
      rw [normMembers]
      try dsimp only
      rw [renderSub]
      cases ms with
      | nil => exact absurd rfl hne
      | cons a tl => simp
  | sub_and E ms hne hms ih =>
      constructor
      · have hsp := spliceAnd_fixed S opts E ms ih
        rw [show entriesOf (mkAnd ms) = [("and", .arr ms)] from rfl]
        rw [normSubF, normMembers, entryContrib, if_pos rfl,
          show jelems (.arr ms) = ms from rfl, hsp]
        try dsimp only
        rw [normMembers]
        try dsimp only
        simp [renderSub, mkAnd]
      · cases ms with
        | nil => exact absurd rfl hne
        | cons a tl => simp [isEmptySub, mkAnd]
  | sub_or E ms hne hms ih =>
      constructor
      · have hol := normOrList_fixed S opts E ms ih
        rw [show entriesOf (mkOr ms) = [("or", .arr ms)] from rfl]
        rw [normSubF, normMembers, entryContrib, if_neg (by decide), if_pos rfl,
          show jelems (.arr ms) = ms from rfl, hol]
        try dsimp only
        rw [normMembers]
        try dsimp only
        rw [renderSub]
        cases ms with
        | nil => exact absurd rfl hne
        | cons a tl => simp
      · simp [isEmptySub, mkOr]
  | mem_leaf E k vkvs hok =>
      obtain ⟨hk1, hk2, hrel, hprop, hops⟩ := hok
      have hnv := normValue_fixed opts E k vkvs hops
      constructor
      · rw [show entriesOf (JVal.obj [(k, .obj vkvs)]) = [(k, .obj vkvs)] from rfl]
        rw [normMembers, entryContrib, if_neg hk1, if_neg hk2, hrel]
        try dsimp only
        rw [if_pos hprop, hnv]
        try dsimp only
        rw [normMembers]
        try dsimp only
        rw [show memberSplit (JVal.obj [(k, .obj vkvs)]) =
          ([JVal.obj [(k, .obj vkvs)]], []) from rfl]
        simp
      · show spliceOne (JVal.obj [(k, .obj vkvs)]) = [JVal.obj [(k, .obj vkvs)]]
        rfl
  | mem_rel E k rel sub hk1 hk2 hrel hsub ih =>
      obtain ⟨hfix, hne⟩ := ih
      constructor
      · rw [show entriesOf (JVal.obj [(k, sub)]) = [(k, sub)] from rfl]
        rw [normMembers, entryContrib, if_neg hk1, if_neg hk2, hrel]
        try dsimp only
        rw [hfix]
        try dsimp only
        rw [hne]
        try dsimp only
        rw [normMembers]
        try dsimp only
        rw [show memberSplit (JVal.obj [(k, sub)]) = ([JVal.obj [(k, sub)]], []) from ?_]
        · simp
        · cases hsub with
          | sub_and ms hne2 hms => rfl
          | sub_or ms hne2 hms => rfl
      · cases hsub <;> rfl
  | mem_or E ms hne hms ih =>
      have hol := normOrList_fixed S opts E ms ih
      constructor
      · rw [show entriesOf (mkOr ms) = [("or", .arr ms)] from rfl]
        rw [normMembers, entryContrib, if_neg (by decide), if_pos rfl,
          show jelems (.arr ms) = ms from rfl, hol]
        try dsimp only
        rw [normMembers]
        try dsimp only
        rw [show memberSplit (mkOr ms) = ([], ms) from rfl]
        simp
      · cases ms with
        | nil => exact absurd rfl hne
        | cons a tl =>
            show spliceOne (mkOr (a :: tl)) = [mkOr (a :: tl)]
            simp [spliceOne, memberSplit, mkOr]
  | or_leaf E k vkvs hok =>
      obtain ⟨hk1, hk2, hrel, hprop, hops⟩ := hok
      have hnv := normValue_fixed opts E k vkvs hops
      show normOrMember S opts E (JVal.obj [(k, .obj vkvs)]) = .ok (JVal.obj [(k, .obj vkvs)])
      rw [normOrMember]
      rw [show entriesOf (JVal.obj [(k, .obj vkvs)]) = [(k, .obj vkvs)] from rfl]
      rw [normMembers, entryContrib, if_neg hk1, if_neg hk2, hrel]
      try dsimp only
      rw [if_pos hprop, hnv]
      try dsimp only
      rw [normMembers]
      rfl
  | or_rel E k rel sub hk1 hk2 hrel hsub ih =>
      obtain ⟨hfix, hne⟩ := ih
      show normOrMember S opts E (JVal.obj [(k, sub)]) = .ok (JVal.obj [(k, sub)])
      rw [normOrMember]
      rw [show entriesOf (JVal.obj [(k, sub)]) = [(k, sub)] from rfl]
      rw [normMembers, entryContrib, if_neg hk1, if_neg hk2, hrel]
      try dsimp only
      rw [hfix]
      try dsimp only
      rw [hne]
      try dsimp only
      rw [normMembers]
      rfl
  | or_or E ms hne hms ih =>
      have hol := normOrList_fixed S opts E ms ih
      show normOrMember S opts E (mkOr ms) = .ok (mkOr ms)
      rw [normOrMember]
      rw [show entriesOf (mkOr ms) = [("or", .arr ms)] from rfl]
      rw [normMembers, entryContrib, if_neg (by decide), if_pos rfl,
        show jelems (.arr ms) = ms from rfl, hol]
      try dsimp only
      cases ms with
      | nil => exact absurd rfl hne
      | cons a tl =>
          rw [normMembers]
          try dsimp only
          simp only [List.append_nil, List.nil_append]
          rfl
  | or_and E ms hlen hms ih =>
      have hsp := spliceAnd_fixed S opts E ms ih
      show normOrMember S opts E (mkAnd ms) = .ok (mkAnd ms)
      rw [normOrMember]
      rw [show entriesOf (mkAnd ms) = [("and", .arr ms)] from rfl]
      rw [normMembers, entryContrib, if_pos rfl,
        show jelems (.arr ms) = ms from rfl, hsp]
      try dsimp only
      cases ms with
      | nil =>
          rw [normMembers]
          rfl
      | cons a tl =>
          cases tl with
          | nil => exact absurd rfl hlen
          | cons b tl₂ =>
              rw [normMembers]
              try dsimp only
              simp only [List.append_nil, List.nil_append]
              have hro : renderOrMember (a :: b :: tl₂) [] =
                  mkAnd ((a :: b :: tl₂) ++ []) := rfl
              rw [hro]
              simp only [List.append_nil]

/-- C9: Normalization is idempotent: every filter already in normal form —
leaves shaped `property: (operator: value)` over known property names and
supported operators, grouped under an explicit `and`/`or` — is a fixed
point of `normalizeWhereQuery`. -/
theorem c9_normalization_idempotent (S : Schema) (opts : NormOpts)
    (modelName : String) (f : JVal)
    (h : NF S opts .top (S modelName) f) :
    normalizeWhereQuery S opts modelName f = .ok f :=
  nf_fixed S opts .top (S modelName) f h

theorem c9_witness :
    normalizeWhereQuery testSchema testNormOpts "Book" (mkAnd [titleLeaf]) =
      .ok (mkAnd [titleLeaf]) :=
  c9_normalization_idempotent testSchema testNormOpts "Book" (mkAnd [titleLeaf])
    (NF.top_and _ [titleLeaf] (fun x hx => by
      have hx' : x = titleLeaf := by simpa using hx
      subst hx'
      exact NF.mem_leaf _ "title" [("=", .str "x")] (by
        refine ⟨by decide, by decide, by decide, by decide, ?_⟩
        intro p hp
        have hp' : p = ("=", JVal.str "x") := by simpa using hp
        subst hp'
        exact ⟨by decide, by intro hc; exact absurd hc (by decide)⟩)))
